import Mathlib

/-!
# Verification of the rleveldb storage engine (shallow embedding)

This file embeds, at the byte level, the parts of the `rleveldb` Rust
crate needed to settle the specification claims: the comparators
(`cmp.rs`), the internal-key format (`format.rs`), the memtable
(`memtable.rs`), the write-ahead log (`log.rs`), the write batch
(`write_batch.rs`), the version-edit codec (`version_edit.rs`), the
Bloom filter (`filter.rs`), the block builder and block iterator
(`sstable/block_builder.rs`, `table/block.rs`), and the engine's read
and write paths (`db_impl.rs`).

Byte strings are `List Nat` whose elements are kept below 256 by
construction; machine-integer wrap-around is made explicit with `% 2^w`
where the Rust code can wrap.
-/

namespace RLevelDB

/-- A byte string.  Elements are below 256 by construction. -/
abbrev Bytes := List Nat

/-- Embeds Rust slice comparison `left.cmp(right)` (lexicographic,
bytewise), used by `BitWiseComparator::compare` in `cmp.rs`. -/
def bytesCmp : Bytes → Bytes → Ordering
  | [], [] => .eq
  | [], _ :: _ => .lt
  | _ :: _, [] => .gt
  | a :: as, b :: bs =>
    if a < b then .lt else if b < a then .gt else bytesCmp as bs

/-- Little-endian value of a byte list (first byte is least significant);
this is what `read_u64_le` computes on its 8 input bytes. -/
def leVal : Bytes → Nat
  | [] => 0
  | b :: bs => b + 256 * leVal bs

/-- Little-endian fixed-width encoding: `w` bytes of `n`
(`write_u64_le` has `w = 8`, `write_u32_le` has `w = 4`,
`write_u16_le` has `w = 2`); the value is truncated to `w` bytes
exactly as the Rust cast does. -/
def leBytes (w n : Nat) : Bytes :=
  match w with
  | 0 => []
  | w + 1 => n % 256 :: leBytes w (n / 256)

theorem leBytes_length (w n : Nat) : (leBytes w n).length = w := by
  induction w generalizing n with
  | zero => rfl
  | succ w ih => simp [leBytes, ih]

theorem leVal_leBytes_mod (w n : Nat) : leVal (leBytes w n) = n % 256 ^ w := by
  induction w generalizing n with
  | zero => simp [leBytes, leVal, Nat.mod_one]
  | succ w ih =>
    simp only [leBytes, leVal, ih]
    rw [pow_succ', Nat.mod_mul]

theorem leVal_leBytes (w n : Nat) (h : n < 256 ^ w) : leVal (leBytes w n) = n := by
  induction w generalizing n with
  | zero => simp at h; simp [leBytes, leVal, h]
  | succ w ih =>
    simp only [leBytes, leVal]
    rw [ih]
    · omega
    · have : 256 ^ (w + 1) = 256 ^ w * 256 := by ring
      rw [this] at h
      omega

/-! ## C10: `BitWiseComparator::find_shortest_successor` (`cmp.rs`)

The Rust loop walks the key, and at the first byte that is not `0xff`
increments that byte, sets `truncate_len += 1` (so `truncate_len`
becomes 1 regardless of the byte's position, because it was never
incremented for the skipped `0xff` bytes) and breaks; afterwards the
key is truncated to `truncate_len` when it is nonzero. -/

/-- The loop body of `find_shortest_successor`: returns the mutated key
and the final value of `truncate_len`. -/
def successorLoop : Bytes → Bytes × Nat
  | [] => ([], 0)
  | b :: rest =>
    if b ≠ 255 then ((b + 1) :: rest, 1)
    else
      let (r, t) := successorLoop rest
      (b :: r, t)

/-- Embeds `BitWiseComparator::find_shortest_successor` from `cmp.rs`. -/
def find_shortest_successor (key : Bytes) : Bytes :=
  let (k, t) := successorLoop key
  if t ≠ 0 then k.take t else k

/-- C10: the claim fails on the code.  On input `[0xff, 0x00]` the loop
increments the second byte but `truncate_len` is 1, so the key is
truncated to its first byte, giving `[0xff]`, which compares strictly
less than the original `[0xff, 0x00]`. -/
theorem find_shortest_successor_drops_below_input :
    find_shortest_successor [255, 0] = [255] ∧
      bytesCmp [255] [255, 0] = .lt := by
  constructor
  · rfl
  · rfl

/-! ## C5: `InternalKeyComparator::compare` (`cmp.rs`, `format.rs`) -/

/-- Embeds `extract_user_key` from `format.rs`: all but the last 8 bytes. -/
def extract_user_key (internalKey : Bytes) : Bytes :=
  internalKey.take (internalKey.length - 8)

/-- Embeds `extract_sequence_key` from `format.rs`: the little-endian
`u64` read from the last 8 bytes.  Note the source returns the whole
packed tag `(sequence << 8) | type`, not just the sequence. -/
def extract_sequence_key (internalKey : Bytes) : Nat :=
  leVal (internalKey.drop (internalKey.length - 8))

/-- Embeds `pack_sequence_and_type` from `format.rs`.  For
`t < 256` the Rust `(seq << 8) | t` equals `seq * 256 + t` because the
or-ed ranges are disjoint. -/
def pack_sequence_and_type (seq t : Nat) : Nat := seq * 256 + t

/-- An internal key as laid out by `ParsedInternalKey::append`:
user key followed by the 8-byte little-endian packed tag. -/
def encodeInternalKey (userKey : Bytes) (seq t : Nat) : Bytes :=
  userKey ++ leBytes 8 (pack_sequence_and_type seq t)

/-- Embeds `InternalKeyComparator::compare` from `cmp.rs` with the
default bitwise user comparator: user keys first, then the packed tags
in reverse order (`right_seq.cmp(&left_seq)`). -/
def internalKeyCompare (left right : Bytes) : Ordering :=
  match bytesCmp (extract_user_key left) (extract_user_key right) with
  | .lt => .lt
  | .gt => .gt
  | .eq => compare (extract_sequence_key right) (extract_sequence_key left)

/-- The ordering the spec describes: user key ascending, then sequence
descending, then value type descending. -/
def specInternalOrder (uk1 : Bytes) (s1 t1 : Nat) (uk2 : Bytes) (s2 t2 : Nat) : Ordering :=
  match bytesCmp uk1 uk2 with
  | .lt => .lt
  | .gt => .gt
  | .eq =>
    if s2 < s1 then .lt
    else if s1 < s2 then .gt
    else if t2 < t1 then .lt
    else if t1 < t2 then .gt
    else .eq

theorem extract_user_key_encode (uk : Bytes) (tag : Nat) :
    extract_user_key (uk ++ leBytes 8 tag) = uk := by
  unfold extract_user_key
  rw [List.length_append, leBytes_length]
  simp [List.take_append]

theorem extract_sequence_key_encode (uk : Bytes) (tag : Nat) (h : tag < 256 ^ 8) :
    extract_sequence_key (uk ++ leBytes 8 tag) = tag := by
  unfold extract_sequence_key
  rw [List.length_append, leBytes_length]
  simp only [Nat.add_sub_cancel, List.drop_append, List.drop_length]
  simpa using leVal_leBytes 8 tag h

theorem pack_lt_pack (s1 t1 s2 t2 : Nat) (ht1 : t1 < 256) (ht2 : t2 < 256) :
    pack_sequence_and_type s1 t1 < pack_sequence_and_type s2 t2 ↔
      s1 < s2 ∨ (s1 = s2 ∧ t1 < t2) := by
  unfold pack_sequence_and_type
  constructor
  · intro h
    rcases Nat.lt_trichotomy s1 s2 with hs | hs | hs
    · exact Or.inl hs
    · exact Or.inr ⟨hs, by omega⟩
    · omega
  · rintro (hs | ⟨rfl, ht⟩) <;> omega

/-- C5: `InternalKeyComparator::compare` realizes the spec ordering:
user key ascending under the bitwise comparator, then sequence
descending, then value type descending, so the newest sequence for a
user key compares first (`Ordering::Less`) in a forward scan. -/
theorem internalKeyCompare_spec (uk1 uk2 : Bytes) (s1 t1 s2 t2 : Nat)
    (hs1 : s1 ≤ 2 ^ 56 - 1) (hs2 : s2 ≤ 2 ^ 56 - 1)
    (ht1 : t1 < 256) (ht2 : t2 < 256) :
    internalKeyCompare (encodeInternalKey uk1 s1 t1) (encodeInternalKey uk2 s2 t2) =
      specInternalOrder uk1 s1 t1 uk2 s2 t2 := by
  have htag1 : pack_sequence_and_type s1 t1 < 256 ^ 8 := by
    unfold pack_sequence_and_type
    have : (256 : Nat) ^ 8 = (2 ^ 56) * 256 := by norm_num
    omega
  have htag2 : pack_sequence_and_type s2 t2 < 256 ^ 8 := by
    unfold pack_sequence_and_type
    have : (256 : Nat) ^ 8 = (2 ^ 56) * 256 := by norm_num
    omega
  unfold internalKeyCompare specInternalOrder encodeInternalKey
  rw [extract_user_key_encode, extract_user_key_encode,
    extract_sequence_key_encode _ _ htag1, extract_sequence_key_encode _ _ htag2]
  cases hcmp : bytesCmp uk1 uk2 with
  | lt => rfl
  | gt => rfl
  | eq =>
    simp only
    rcases Nat.lt_trichotomy s2 s1 with hs | hs | hs
    · have : pack_sequence_and_type s2 t2 < pack_sequence_and_type s1 t1 :=
        (pack_lt_pack s2 t2 s1 t1 ht2 ht1).mpr (Or.inl hs)
      rw [Nat.compare_eq_lt.mpr this]
      simp [hs]
    · subst hs
      rcases Nat.lt_trichotomy t2 t1 with ht | ht | ht
      · have : pack_sequence_and_type s2 t2 < pack_sequence_and_type s2 t1 :=
          (pack_lt_pack s2 t2 s2 t1 ht2 ht1).mpr (Or.inr ⟨rfl, ht⟩)
        rw [Nat.compare_eq_lt.mpr this]
        simp [ht]
      · subst ht
        rw [Nat.compare_eq_eq.mpr rfl]
        simp
      · have : pack_sequence_and_type s2 t1 < pack_sequence_and_type s2 t2 :=
          (pack_lt_pack s2 t1 s2 t2 ht1 ht2).mpr (Or.inr ⟨rfl, ht⟩)
        rw [Nat.compare_eq_gt.mpr this]
        simp [ht, Nat.lt_asymm ht]
    · have : pack_sequence_and_type s1 t1 < pack_sequence_and_type s2 t2 :=
        (pack_lt_pack s1 t1 s2 t2 ht1 ht2).mpr (Or.inl hs)
      rw [Nat.compare_eq_gt.mpr this]
      simp [hs, Nat.lt_asymm hs]

/-- Witness for C5 at concrete inputs: equal user keys `[7]`, sequences
5 and 3; the newer sequence 5 compares first. -/
theorem internalKeyCompare_spec_witness :
    (5 ≤ 2 ^ 56 - 1 ∧ 3 ≤ 2 ^ 56 - 1 ∧ 1 < 256 ∧ 1 < 256) ∧
      internalKeyCompare (encodeInternalKey [7] 5 1) (encodeInternalKey [7] 3 1) =
        specInternalOrder [7] 5 1 [7] 3 1 ∧
      specInternalOrder [7] 5 1 [7] 3 1 = .lt := by
  refine ⟨by norm_num, ?_, by rfl⟩
  exact internalKeyCompare_spec [7] [7] 5 1 3 1 (by norm_num) (by norm_num)
    (by norm_num) (by norm_num)

/-! ## Varint codec (`codec.rs`, and the `integer_encoding` crate)

`write_var_u64` (and the `integer_encoding` LEB128 writer used by the
memtable and block builder) emits, while `v >= 128`, the byte
`(v | 0x80) & 0xFF` — whose low 7 bits are `v % 128` and whose bit 7 is
set, i.e. `v % 128 + 128` — then shifts `v` right by 7; the final byte
is `v` itself.  `write_var_u32`'s explicit five-way branch produces the
same bytes for every `v < 2^32`. -/

/-- Fuel-indexed LEB128 writer loop; the fuel only serves structural
recursion and is irrelevant once it dominates the value (see
`writeVarintGo_congr`). -/
def writeVarintGo : Nat → Nat → Bytes
  | 0, v => [v]
  | fuel + 1, v => if v < 128 then [v] else (v % 128 + 128) :: writeVarintGo fuel (v / 128)

/-- LEB128 varint encoding, embedding `write_var_u64` from `codec.rs`
(and `integer_encoding::VarIntWriter::write_varint`). -/
def writeVarint (v : Nat) : Bytes := writeVarintGo v v

theorem writeVarintGo_congr (v f1 f2 : Nat) (h1 : v ≤ f1) (h2 : v ≤ f2) :
    writeVarintGo f1 v = writeVarintGo f2 v := by
  induction v using Nat.strong_induction_on generalizing f1 f2 with
  | _ v ih =>
    match f1, f2 with
    | 0, 0 => rfl
    | 0, f2 + 1 =>
      have : v = 0 := by omega
      subst this
      simp [writeVarintGo]
    | f1 + 1, 0 =>
      have : v = 0 := by omega
      subst this
      simp [writeVarintGo]
    | f1 + 1, f2 + 1 =>
      simp only [writeVarintGo]
      by_cases hv : v < 128
      · simp [hv]
      · simp only [hv, if_false]
        have hlt : v / 128 < v := Nat.div_lt_self (by omega) (by omega)
        rw [ih (v / 128) hlt f1 f2 (by omega) (by omega)]

/-- The varint reader loop shared by `read_var_u32` / `read_var_u64` in
`codec.rs`: at the `k`-th byte (shift `7*k`), stop when the
continuation bit (bit 7) is clear, accumulating `(byte & 127) << shift`
(which is `byte % 128 * 128^k` for bytes below 256).  `read_var_u32`
allows shifts up to 28 (`maxK = 5` bytes), `read_var_u64` up to 63
(`maxK = 10` bytes); exceeding that, or hitting end of input, is an
error (`none`). -/
def readVarintLoop (maxK : Nat) : Nat → Nat → Bytes → Option (Nat × Bytes)
  | _, _, [] => none
  | k, result, b :: rest =>
    if k ≥ maxK then none
    else if b < 128 then some (result + b * 128 ^ k, rest)
    else readVarintLoop maxK (k + 1) (result + b % 128 * 128 ^ k) rest

/-- Embeds `read_var_u32` from `codec.rs` (consuming reader). -/
def readVarU32 (bs : Bytes) : Option (Nat × Bytes) :=
  readVarintLoop 5 0 0 bs

/-- Embeds `read_var_u64` from `codec.rs` (consuming reader). -/
def readVarU64 (bs : Bytes) : Option (Nat × Bytes) :=
  readVarintLoop 10 0 0 bs

theorem writeVarint_lt (v : Nat) (h : v < 128) : writeVarint v = [v] := by
  unfold writeVarint
  cases v with
  | zero => rfl
  | succ n => simp [writeVarintGo, h]

theorem writeVarint_ge (v : Nat) (h : ¬ v < 128) :
    writeVarint v = (v % 128 + 128) :: writeVarint (v / 128) := by
  unfold writeVarint
  match v, h with
  | v + 1, h =>
    simp only [writeVarintGo, h, if_false]
    congr 1
    exact writeVarintGo_congr ((v + 1) / 128) v ((v + 1) / 128)
      (by omega) (le_refl _)

theorem readVarintLoop_writeVarint (maxK v k result : Nat) (rest : Bytes)
    (hv : v < 128 ^ (maxK - k)) (hk : k < maxK) :
    readVarintLoop maxK k result (writeVarint v ++ rest) =
      some (result + v * 128 ^ k, rest) := by
  induction v using Nat.strong_induction_on generalizing k result with
  | _ v ih =>
    by_cases hsmall : v < 128
    · rw [writeVarint_lt v hsmall]
      unfold readVarintLoop
      simp [Nat.not_lt.mpr, hk, Nat.not_le.mpr hk, hsmall]
    · rw [writeVarint_ge v hsmall]
      unfold readVarintLoop
      have hb : ¬ (v % 128 + 128 < 128) := by omega
      simp only [List.cons_append, Nat.not_le.mpr hk, if_false, hb, if_false]
      have hk1 : k + 1 < maxK := by
        rcases Nat.lt_or_ge (k + 1) maxK with h | h
        · exact h
        · exfalso
          have : maxK - k = 1 := by omega
          rw [this] at hv
          simp at hv
          omega
      have hv1 : v / 128 < 128 ^ (maxK - (k + 1)) := by
        have hexp : 128 ^ (maxK - k) = 128 ^ (maxK - (k + 1)) * 128 := by
          have : maxK - k = (maxK - (k + 1)) + 1 := by omega
          rw [this]; ring
        rw [hexp] at hv
        exact Nat.div_lt_of_lt_mul (by omega)
      rw [ih (v / 128) (Nat.div_lt_self (by omega) (by omega)) (k + 1) _ hv1 hk1]
      congr 2
      have : v % 128 + 128 * (v / 128) = v := by omega
      calc result + (v % 128 + 128) % 128 * 128 ^ k + v / 128 * 128 ^ (k + 1)
          = result + (v % 128) * 128 ^ k + (v / 128) * (128 ^ k * 128) := by
            have h2 : (v % 128 + 128) % 128 = v % 128 := by omega
            rw [h2]; ring
        _ = result + (v % 128 + 128 * (v / 128)) * 128 ^ k := by ring
        _ = result + v * 128 ^ k := by rw [this]

/-- Round trip of the 32-bit varint reader over the LEB128 writer
(values below `2^32` fit in at most five LEB128 bytes). -/
theorem readVarU32_writeVarint (v : Nat) (rest : Bytes) (h : v < 2 ^ 32) :
    readVarU32 (writeVarint v ++ rest) = some (v, rest) := by
  unfold readVarU32
  rw [readVarintLoop_writeVarint 5 v 0 0 rest (by norm_num; omega) (by norm_num)]
  simp

/-- Round trip of the 64-bit varint reader over the LEB128 writer. -/
theorem readVarU64_writeVarint (v : Nat) (rest : Bytes) (h : v < 2 ^ 64) :
    readVarU64 (writeVarint v ++ rest) = some (v, rest) := by
  unfold readVarU64
  rw [readVarintLoop_writeVarint 10 v 0 0 rest (by norm_num; omega) (by norm_num)]
  simp

/-- Embeds `read_length_prefixed_slice` from `codec.rs`: a varint32
length followed by that many bytes. -/
def readLengthPrefixedSlice (bs : Bytes) : Option (Bytes × Bytes) :=
  match readVarU32 bs with
  | none => none
  | some (len, rest) =>
    if len ≤ rest.length then some (rest.take len, rest.drop len) else none

/-- Embeds `write_length_prefixed_slice` from `codec.rs`. -/
def writeLengthPrefixedSlice (data : Bytes) : Bytes :=
  writeVarint data.length ++ data

theorem readLengthPrefixedSlice_write (data rest : Bytes) (h : data.length < 2 ^ 32) :
    readLengthPrefixedSlice (writeLengthPrefixedSlice data ++ rest) =
      some (data, rest) := by
  unfold readLengthPrefixedSlice writeLengthPrefixedSlice
  rw [List.append_assoc, readVarU32_writeVarint data.length (data ++ rest) h]
  simp

/-! ## Memtable (`memtable.rs`, over the ordered set of `skiplist.rs`)

The skip list is an insertion-only ordered set; we embed it as the
sorted list of its entries.  `SkipListIter::seek` calls
`get_greater_or_equal`, which walks to the first node whose key is not
less than the target, i.e. the first element of the sorted list whose
key compares `≥` the target. -/

/-- Embeds `get_length_prefixed_slice` from `cmp.rs`: read a varint32
length and take that many bytes.  A failing varint read is an
`unwrap` panic in the source; it cannot happen on the well-formed
entries the memtable stores, and is mapped to `[]` here. -/
def get_length_prefixed_slice (buf : Bytes) : Bytes :=
  match readVarU32 buf with
  | some (len, rest) => rest.take len
  | none => []

/-- Embeds `KeyComparator::compare` from `cmp.rs`: compare the
length-prefixed internal keys with `InternalKeyComparator`. -/
def keyCompare (left right : Bytes) : Ordering :=
  internalKeyCompare (get_length_prefixed_slice left) (get_length_prefixed_slice right)

/-- Embeds `SkipList::get_greater_or_equal` (hence
`SkipListIter::seek`): the first entry of the ordered set that is not
below the target. -/
def skiplistSeekGE (table : List Bytes) (target : Bytes) : Option Bytes :=
  table.find? (fun e => !(keyCompare e target == .lt))

/-- Embeds `SkipList::insert`: the set is kept ordered by
`KeyComparator`; duplicates are asserted away in the source. -/
def skiplistInsert (table : List Bytes) (entry : Bytes) : List Bytes :=
  match table with
  | [] => [entry]
  | e :: rest =>
    if keyCompare e entry = .lt then e :: skiplistInsert rest entry
    else entry :: e :: rest

/-- The entry bytes composed by `MemTable::add` in `memtable.rs`:
`varint(key_len + 8) || key || u64_le((seq << 8) | t) || varint(value_len) || value`. -/
def memEntryEncode (seq t : Nat) (key value : Bytes) : Bytes :=
  writeVarint (key.length + 8) ++ key ++ leBytes 8 (pack_sequence_and_type seq t) ++
    writeVarint value.length ++ value

/-- Embeds `MemTable::add`. -/
def memtableAdd (table : List Bytes) (seq t : Nat) (key value : Bytes) : List Bytes :=
  skiplistInsert table (memEntryEncode seq t key value)

/-- Embeds `LookupKey` from `memtable.rs`: the full buffer and the
offset of the user key within it. -/
structure LookupKey where
  key : Bytes
  keyOffset : Nat
deriving Repr, DecidableEq

/-- Embeds `LookupKey::new`. -/
def lookupKeyNew (key : Bytes) (seq t : Nat) : LookupKey :=
  { key := writeVarint (key.length + 8) ++ key ++ leBytes 8 (pack_sequence_and_type seq t),
    keyOffset := (writeVarint (key.length + 8)).length }

/-- Embeds `LookupKey::memtable_key`. -/
def LookupKey.memtableKey (lk : LookupKey) : Bytes := lk.key

/-- Embeds `LookupKey::user_key`: `&key[key_offset .. len - 8]`. -/
def LookupKey.userKey (lk : LookupKey) : Bytes :=
  (lk.key.drop lk.keyOffset).take (lk.key.length - 8 - lk.keyOffset)

/-- The three observable outcomes of `MemTable::get` in the source:
`Ok(Some(v))`, `Ok(None)` (a deletion tombstone) and
`Err(NotFoundError)`. -/
inductive MemGetResult where
  | found (value : Bytes)
  | deleted
  | notFound
deriving Repr, DecidableEq

/-- Embeds `MemTable::get` from `memtable.rs` with the default bitwise
user comparator.  `none` charts the `unwrap` panics of the source on
malformed entries; they are unreachable for entries made by
`MemTable::add`. -/
def memtableGet (table : List Bytes) (searchKey : LookupKey) : Option MemGetResult :=
  match skiplistSeekGE table searchKey.memtableKey with
  | none => some .notFound
  | some seekKey =>
    match readVarU32 seekKey with
    | none => none
    | some (ikLen, rest) =>
      if ikLen ≤ rest.length then
        let internalKey := rest.take ikLen
        let rest2 := rest.drop ikLen
        let seekUserKey := internalKey.take (internalKey.length - 8)
        let tagBytes := internalKey.drop (internalKey.length - 8)
        if bytesCmp searchKey.userKey seekUserKey = .eq then
          if tagBytes.length = 8 then
            let recordType := leVal tagBytes % 256
            if recordType = 1 then
              match readVarU32 rest2 with
              | none => none
              | some (vLen, vRest) =>
                if vLen ≤ vRest.length then some (.found (vRest.take vLen))
                else none
            else if recordType = 0 then some .deleted
            else some .notFound
          else none
        else some .notFound
      else none

/-! ### C4: decode lemmas for well-formed memtable entries -/

/-- The internal key stored in a memtable entry (spec-side accessor,
mirroring the reads MemTable::get performs). -/
def entryInternalKey (e : Bytes) : Bytes :=
  match readVarU32 e with
  | some (len, rest) => rest.take len
  | none => []

/-- The user key stored in a memtable entry. -/
def entryUserKey (e : Bytes) : Bytes :=
  (entryInternalKey e).take ((entryInternalKey e).length - 8)

/-- The value-type byte of the tag stored in a memtable entry. -/
def entryType (e : Bytes) : Nat :=
  leVal ((entryInternalKey e).drop ((entryInternalKey e).length - 8)) % 256

/-- The value stored in a memtable entry. -/
def entryValue (e : Bytes) : Bytes :=
  match readVarU32 e with
  | some (len, rest) =>
    match readVarU32 (rest.drop len) with
    | some (vlen, vrest) => vrest.take vlen
    | none => []
  | none => []

theorem readVarU32_memEntry (seq t : Nat) (key value : Bytes)
    (h : key.length + 8 < 2 ^ 32) :
    readVarU32 (memEntryEncode seq t key value) =
      some (key.length + 8,
        key ++ leBytes 8 (pack_sequence_and_type seq t) ++
          writeVarint value.length ++ value) := by
  unfold memEntryEncode
  simp only [List.append_assoc]
  rw [readVarU32_writeVarint _ _ h]

theorem entryInternalKey_encode (seq t : Nat) (key value : Bytes)
    (h : key.length + 8 < 2 ^ 32) :
    entryInternalKey (memEntryEncode seq t key value) =
      key ++ leBytes 8 (pack_sequence_and_type seq t) := by
  unfold entryInternalKey
  rw [readVarU32_memEntry seq t key value h]
  simp only [List.append_assoc]
  rw [← List.append_assoc key]
  exact List.take_left' (by simp [leBytes_length])

theorem entryUserKey_encode (seq t : Nat) (key value : Bytes)
    (h : key.length + 8 < 2 ^ 32) :
    entryUserKey (memEntryEncode seq t key value) = key := by
  unfold entryUserKey
  rw [entryInternalKey_encode seq t key value h]
  have hlen : (key ++ leBytes 8 (pack_sequence_and_type seq t)).length = key.length + 8 := by
    simp [leBytes_length]
  rw [hlen]
  simp only [Nat.add_sub_cancel]
  exact List.take_left' rfl

theorem entryType_encode (seq t : Nat) (key value : Bytes)
    (h : key.length + 8 < 2 ^ 32) (ht : t < 256) :
    entryType (memEntryEncode seq t key value) = t := by
  unfold entryType
  rw [entryInternalKey_encode seq t key value h]
  have hlen : (key ++ leBytes 8 (pack_sequence_and_type seq t)).length = key.length + 8 := by
    simp [leBytes_length]
  rw [hlen]
  simp only [Nat.add_sub_cancel]
  rw [List.drop_left' rfl, leVal_leBytes_mod,
    Nat.mod_mod_of_dvd _ (by norm_num : (256 : Nat) ∣ 256 ^ 8)]
  unfold pack_sequence_and_type
  omega

theorem entryValue_encode (seq t : Nat) (key value : Bytes)
    (h : key.length + 8 < 2 ^ 32) (hv : value.length < 2 ^ 32) :
    entryValue (memEntryEncode seq t key value) = value := by
  unfold entryValue
  rw [readVarU32_memEntry seq t key value h]
  simp only [List.append_assoc]
  rw [← List.append_assoc key]
  rw [List.drop_left' (by simp [leBytes_length])]
  rw [readVarU32_writeVarint _ _ hv]
  simp

/-- Well-formedness of a memtable entry: it was composed by
`MemTable::add` from in-range components. -/
def WfMemEntry (e : Bytes) : Prop :=
  ∃ s t k v, s ≤ 2 ^ 56 - 1 ∧ t < 256 ∧ k.length + 8 < 2 ^ 32 ∧
    v.length < 2 ^ 32 ∧ e = memEntryEncode s t k v

theorem lookupKeyNew_userKey (uk : Bytes) (seq t : Nat) :
    (lookupKeyNew uk seq t).userKey = uk := by
  unfold lookupKeyNew LookupKey.userKey
  simp only [List.append_assoc]
  rw [List.drop_left' rfl]
  have : (writeVarint (uk.length + 8) ++ (uk ++ leBytes 8 (pack_sequence_and_type seq t))).length -
      8 - (writeVarint (uk.length + 8)).length = uk.length := by
    simp [leBytes_length]; omega
  rw [this]
  exact List.take_left' rfl

theorem bytesCmp_refl (a : Bytes) : bytesCmp a a = .eq := by
  induction a with
  | nil => rfl
  | cons b rest ih => simp [bytesCmp, ih]

theorem keyCompare_refl (a : Bytes) : keyCompare a a = .eq := by
  unfold keyCompare internalKeyCompare
  rw [bytesCmp_refl]
  simp [Nat.compare_eq_eq]

/-- `find?` over a pairwise-sorted list returns the least element
satisfying the predicate. -/
theorem find?_sorted_min (R : Bytes → Bytes → Prop) (p : Bytes → Bool)
    (l : List Bytes) (hsorted : l.Pairwise R) (e : Bytes)
    (h : l.find? p = some e) :
    e ∈ l ∧ p e = true ∧ ∀ f ∈ l, p f = true → e = f ∨ R e f := by
  induction l with
  | nil => simp at h
  | cons a l ih =>
    rcases List.pairwise_cons.mp hsorted with ⟨ha, hl⟩
    by_cases hpa : p a
    · rw [List.find?_cons_of_pos _ hpa] at h
      obtain rfl : a = e := by injection h
      refine ⟨List.mem_cons_self a l, hpa, ?_⟩
      intro f hf _
      rcases List.mem_cons.mp hf with rfl | hf
      · exact Or.inl rfl
      · exact Or.inr (ha f hf)
    · rw [List.find?_cons_of_neg _ hpa] at h
      obtain ⟨hmem, hpe, hmin⟩ := ih hl h
      refine ⟨List.mem_cons_of_mem a hmem, hpe, ?_⟩
      intro f hf hpf
      rcases List.mem_cons.mp hf with rfl | hf
      · exact absurd hpf hpa
      · exact hmin f hf hpf

/-- C4: `MemTable::get` behaves as the claim states.  First conjunct:
on any memtable whose entries are well-formed, the result is determined
by the smallest stored entry whose encoded key is `≥` the lookup-key
encoding — value for tag `Value` (1), the deleted indication for tag
`Deletion` (0), and `NotFound` when there is no such entry or its user
key differs.  Second conjunct: on a sorted memtable the sought entry is
indeed the least entry `≥` the lookup encoding. -/
theorem memtableGet_spec (table : List Bytes) (uk : Bytes) (seq t : Nat)
    (hwf : ∀ e ∈ table, WfMemEntry e)
    (hsorted : table.Pairwise (fun a b => keyCompare a b = .lt)) :
    (memtableGet table (lookupKeyNew uk seq t) =
      some (match skiplistSeekGE table (lookupKeyNew uk seq t).memtableKey with
        | none => .notFound
        | some e =>
          if bytesCmp uk (entryUserKey e) = .eq then
            if entryType e = 1 then .found (entryValue e)
            else if entryType e = 0 then .deleted
            else .notFound
          else .notFound)) ∧
    (∀ e, skiplistSeekGE table (lookupKeyNew uk seq t).memtableKey = some e →
      e ∈ table ∧ keyCompare e (lookupKeyNew uk seq t).memtableKey ≠ .lt ∧
        ∀ f ∈ table, keyCompare f (lookupKeyNew uk seq t).memtableKey ≠ .lt →
          keyCompare e f ≠ .gt) := by
  constructor
  · cases hseek : skiplistSeekGE table (lookupKeyNew uk seq t).memtableKey with
    | none =>
      unfold memtableGet
      rw [hseek]
    | some e =>
      have hmem : e ∈ table := List.mem_of_find?_eq_some hseek
      obtain ⟨s, ty, k, v, hs, hty, hk, hv, rfl⟩ := hwf e hmem
      unfold memtableGet
      rw [hseek]
      simp only
      rw [readVarU32_memEntry s ty k v hk]
      simp only
      have hrest :
          (k ++ leBytes 8 (pack_sequence_and_type s ty) ++ writeVarint v.length ++ v).length =
            k.length + 8 + (writeVarint v.length ++ v).length := by
        simp [leBytes_length]; omega
      rw [if_pos (by rw [hrest]; omega)]
      simp only [List.append_assoc]
      rw [← List.append_assoc k]
      have hik : ((k ++ leBytes 8 (pack_sequence_and_type s ty)) ++
          (writeVarint v.length ++ v)).take (k.length + 8) =
            k ++ leBytes 8 (pack_sequence_and_type s ty) :=
        List.take_left' (by simp [leBytes_length])
      have hdp : ((k ++ leBytes 8 (pack_sequence_and_type s ty)) ++
          (writeVarint v.length ++ v)).drop (k.length + 8) =
            writeVarint v.length ++ v :=
        List.drop_left' (by simp [leBytes_length])
      rw [hik, hdp]
      have hlen2 : (k ++ leBytes 8 (pack_sequence_and_type s ty)).length = k.length + 8 := by
        simp [leBytes_length]
      rw [hlen2]
      simp only [Nat.add_sub_cancel]
      rw [List.take_left' rfl, List.drop_left' rfl]
      rw [lookupKeyNew_userKey]
      rw [entryUserKey_encode s ty k v hk, entryType_encode s ty k v hk hty,
        entryValue_encode s ty k v hk hv]
      by_cases hcmp : bytesCmp uk k = .eq
      · rw [if_pos hcmp, if_pos hcmp, if_pos (by rw [leBytes_length])]
        have htag : leVal (leBytes 8 (pack_sequence_and_type s ty)) % 256 = ty := by
          rw [leVal_leBytes_mod,
            Nat.mod_mod_of_dvd _ (by norm_num : (256 : Nat) ∣ 256 ^ 8)]
          unfold pack_sequence_and_type
          omega
        rw [htag]
        by_cases h1 : ty = 1
        · rw [if_pos h1, if_pos h1]
          rw [readVarU32_writeVarint _ _ hv]
          simp [List.take_length]
        · rw [if_neg h1, if_neg h1]
          by_cases h0 : ty = 0
          · rw [if_pos h0, if_pos h0]
          · rw [if_neg h0, if_neg h0]
      · rw [if_neg hcmp, if_neg hcmp]
  · intro e hseek
    have := find?_sorted_min (fun a b => keyCompare a b = .lt)
      (fun f => !(keyCompare f (lookupKeyNew uk seq t).memtableKey == .lt)) table hsorted e hseek
    obtain ⟨hmem, hpe, hmin⟩ := this
    refine ⟨hmem, ?_, ?_⟩
    · intro hcon
      have hpe2 : (!(keyCompare e (lookupKeyNew uk seq t).memtableKey == Ordering.lt))
          = true := hpe
      rw [hcon] at hpe2
      exact absurd hpe2 (by decide)
    · intro f hf hpf
      have hpfb : (fun g => !(keyCompare g (lookupKeyNew uk seq t).memtableKey == .lt)) f
          = true := by
        show (!(keyCompare f (lookupKeyNew uk seq t).memtableKey == Ordering.lt)) = true
        cases hx : keyCompare f (lookupKeyNew uk seq t).memtableKey with
        | lt => exact absurd hx hpf
        | eq => rfl
        | gt => rfl
      rcases hmin f hf hpfb with rfl | hlt
      · rw [keyCompare_refl]
        simp
      · rw [hlt]
        simp

/-- Witness for C4: a one-entry memtable holding `([107] , seq 3,
Value, [118])`, looked up at snapshot 5; the hypotheses hold and the
characterization applies. -/
theorem memtableGet_spec_witness :
    ((∀ e ∈ [memEntryEncode 3 1 [107] [118]], WfMemEntry e) ∧
      ([memEntryEncode 3 1 [107] [118]] : List Bytes).Pairwise
        (fun a b => keyCompare a b = .lt)) ∧
    (memtableGet [memEntryEncode 3 1 [107] [118]] (lookupKeyNew [107] 5 1) =
      some (match skiplistSeekGE [memEntryEncode 3 1 [107] [118]]
          (lookupKeyNew [107] 5 1).memtableKey with
        | none => .notFound
        | some e =>
          if bytesCmp [107] (entryUserKey e) = .eq then
            if entryType e = 1 then .found (entryValue e)
            else if entryType e = 0 then .deleted
            else .notFound
          else .notFound)) := by
  have hwf : ∀ e ∈ [memEntryEncode 3 1 [107] [118]], WfMemEntry e := by
    intro e he
    simp only [List.mem_singleton] at he
    exact ⟨3, 1, [107], [118], by norm_num, by norm_num, by norm_num, by norm_num, he⟩
  have hsorted : ([memEntryEncode 3 1 [107] [118]] : List Bytes).Pairwise
      (fun a b => keyCompare a b = .lt) := by
    simp
  exact ⟨⟨hwf, hsorted⟩,
    (memtableGet_spec [memEntryEncode 3 1 [107] [118]] [107] 5 1 hwf hsorted).1⟩

/-! ## Write batch (`write_batch.rs`) -/

/-- Embeds `WriteBatch::new`: a 12-byte zero header
(8-byte sequence, 4-byte count). -/
def batchNew : Bytes := List.replicate 12 0

/-- Embeds `WriteBatch::set_sequence`: overwrite the first 8 bytes with
the little-endian sequence. -/
def batchSetSequence (rep : Bytes) (seq : Nat) : Bytes :=
  leBytes 8 seq ++ rep.drop 8

/-- Embeds `WriteBatch::sequence`. -/
def batchSequence (rep : Bytes) : Nat := leVal (rep.take 8)

/-- Embeds `WriteBatch::count`. -/
def batchCount (rep : Bytes) : Nat := leVal ((rep.drop 8).take 4)

/-- Embeds `WriteBatch::set_count`. -/
def batchSetCount (rep : Bytes) (n : Nat) : Bytes :=
  rep.take 8 ++ leBytes 4 n ++ rep.drop 12

/-- Embeds `WriteBatch::put`; key and value lengths are written as
`u32` casts, hence the `% 2^32`. -/
def batchPut (rep : Bytes) (key value : Bytes) : Bytes :=
  batchSetCount rep (batchCount rep + 1) ++
    [1] ++ writeVarint (key.length % 2 ^ 32) ++ key ++
    writeVarint (value.length % 2 ^ 32) ++ value

/-- Embeds `WriteBatch::delete`. -/
def batchDelete (rep : Bytes) (key : Bytes) : Bytes :=
  batchSetCount rep (batchCount rep + 1) ++
    [0] ++ writeVarint (key.length % 2 ^ 32) ++ key

/-- The payload loop of `WriteBatch::iterate` driving
`MemtableInserter` (`insert_into`): decode tagged entries, apply each
to the memtable with the running sequence, and count them.  The fuel is
the payload length; each iteration consumes at least the tag byte. -/
def batchIterateLoop : Nat → Bytes → Nat → List Bytes → Nat →
    Option (List Bytes × Nat)
  | _, [], _, mem, found => some (mem, found)
  | 0, _ :: _, _, _, _ => none
  | fuel + 1, b :: rest, seq, mem, found =>
    if b = 0 then
      match readLengthPrefixedSlice rest with
      | none => none
      | some (key, rest2) =>
        batchIterateLoop fuel rest2 (seq + 1) (memtableAdd mem seq 0 key []) (found + 1)
    else if b = 1 then
      match readLengthPrefixedSlice rest with
      | none => none
      | some (key, rest2) =>
        match readLengthPrefixedSlice rest2 with
        | none => none
        | some (value, rest3) =>
          batchIterateLoop fuel rest3 (seq + 1) (memtableAdd mem seq 1 key value) (found + 1)
    else none

/-- Embeds `WriteBatch::insert_into` (via `iterate` +
`MemtableInserter`): apply the batch's entries to the memtable with
sequences starting at the batch's stamped sequence; `none` charts the
`Corruption` errors of the source (malformed payload or a count that
disagrees with the header). -/
def batchInsertInto (rep : Bytes) (mem : List Bytes) : Option (List Bytes) :=
  if rep.length < 12 then none
  else
    match batchIterateLoop (rep.drop 12).length (rep.drop 12) (batchSequence rep) mem 0 with
    | none => none
    | some (mem2, found) => if found = batchCount rep then some mem2 else none

/-! ## C2: `DBImplInner::write_inner` (`db_impl.rs`) -/

/-- The engine state touched by the write path: the version set's
`last_sequence`, the WAL's logical record stream, and the live
memtable. -/
structure WriteState where
  versionsLastSequence : Nat
  walRecords : List Bytes
  mem : List Bytes
deriving Repr, DecidableEq

/-- Embeds `DBImplInner::write_inner` from `db_impl.rs`: read
`versions.last_sequence()`, stamp the batch with it plus one, add
`batch.count()` to a local variable — which is then dropped when the
versions guard is released, `versions.set_last_sequence` never being
called — append the batch content to the WAL, and apply the batch to
the live memtable.  (The WAL record is kept logical here; its physical
framing is embedded in the log section.) -/
def writeInner (st : WriteState) (batch : Bytes) : Option (WriteState × Bytes) :=
  let lastSequence := st.versionsLastSequence
  let batch2 := batchSetSequence batch (lastSequence + 1)
  let _lastSequenceLocal := lastSequence + batchCount batch2
  match batchInsertInto batch2 st.mem with
  | none => none
  | some mem2 =>
    some ({ st with walRecords := st.walRecords ++ [batch2], mem := mem2 }, batch2)

theorem batchSequence_setSequence (rep : Bytes) (seq : Nat) :
    batchSequence (batchSetSequence rep seq) = seq % 256 ^ 8 := by
  unfold batchSequence batchSetSequence
  rw [List.take_left' (leBytes_length 8 seq), leVal_leBytes_mod]

/-- C2: the claim fails on the code.  Every successful write stamps its
batch with `last_sequence + 1` (as a `u64`) but leaves the engine's
`last_sequence` unchanged — the advanced value lives only in a local
that is dropped with the versions guard — so two consecutive writes
receive the same sequence range instead of contiguous disjoint ones. -/
theorem writeInner_stamps_but_never_advances (st : WriteState) (batch : Bytes) :
    Option.map (fun p => (p.1.versionsLastSequence, batchSequence p.2))
        (writeInner st batch) =
      Option.map
        (fun _ => (st.versionsLastSequence, (st.versionsLastSequence + 1) % 256 ^ 8))
        (writeInner st batch) := by
  unfold writeInner
  cases h : batchInsertInto (batchSetSequence batch (st.versionsLastSequence + 1)) st.mem with
  | none => simp [h]
  | some mem2 => simp [h, batchSequence_setSequence]

/-! ## C1: `DBImplInner::get` (`db_impl.rs`) -/

/-- Errors surfaced by the engine's read path. -/
inductive DBError where
  | notFound
  | corruption
deriving Repr, DecidableEq

/-- The engine state visible to `get`. -/
structure DBState where
  versionsLastSequence : Nat
  mem : List Bytes
deriving Repr, DecidableEq

/-- Embeds `DBImplInner::get` from `db_impl.rs` (lines 333–339): the
body computes the snapshot from `versions.last_sequence()`, builds the
`LookupKey`, takes the memtable reference — and then, the probe being
commented out in the source, returns `Ok(())` without touching the
output buffer. -/
def dbImplGet (db : DBState) (key : Bytes) (value : Bytes) :
    Except DBError Unit × Bytes :=
  let snapshot := db.versionsLastSequence
  let _lookupKey := lookupKeyNew key snapshot 1
  let _memtable := db.mem
  (Except.ok (), value)

/-- C1: the claim fails on the code.  `get` returns `Ok(())` and leaves
the output buffer untouched for every state and key — it probes
nothing — even when the live memtable does hold a value for the key
(second conjunct: the memtable layer would answer `found [118]` for
key `[107]`). -/
theorem dbImplGet_is_a_stub :
    (∀ (db : DBState) (key value : Bytes),
        dbImplGet db key value = (Except.ok (), value)) ∧
      memtableGet [memEntryEncode 1 1 [107] [118]] (lookupKeyNew [107] 1 1) =
        some (.found [118]) := by
  refine ⟨fun _ _ _ => rfl, ?_⟩
  decide

/-! ## Write-ahead log (`log.rs`)

The crate hashes with `Crc<u32>::new(&CRC_32_ISCSI)`: the Castagnoli
CRC-32 (polynomial `0x1EDC6F41`, reflected form `0x82F63B78`),
initial value `0xFFFFFFFF`, reflected input/output, final xor
`0xFFFFFFFF`.  We embed the standard reflected bit-serial form. -/

/-- One bit step of the reflected CRC-32C update. -/
def crc32cStepBit (c : Nat) : Nat :=
  if c % 2 = 1 then (c / 2) ^^^ 0x82F63B78 else c / 2

/-- One byte step of the reflected CRC-32C update. -/
def crc32cByte (c b : Nat) : Nat :=
  Nat.iterate crc32cStepBit 8 (c ^^^ b)

/-- CRC-32C (Castagnoli) of a byte string, as computed by
`digest.update(…); digest.finalize()` in `log.rs`. -/
def crc32c (data : Bytes) : Nat :=
  (data.foldl crc32cByte 0xFFFFFFFF) ^^^ 0xFFFFFFFF

/-- `BLOCK_SIZE` from `log.rs`. -/
def blockSize : Nat := 32 * 1024

/-- `HEADER_SIZE` from `log.rs`. -/
def headerSize : Nat := 7

/-- Embeds `LogWriter::emit_record`: `u32_le checksum || u16_le length
|| u8 type || payload`, where the checksum covers `type || payload`
and the length field is the `u16` cast of the fragment length. -/
def emit_record (t : Nat) (data : Bytes) : Bytes :=
  leBytes 4 (crc32c (t :: data)) ++ leBytes 2 data.length ++ [t] ++ data

/-- The fragmentation loop of `LogWriter::add_record`.  Returns the
bytes appended to the file and the final `current_block_offset`.  Note
two faithful peculiarities of the source: an empty record never enters
the loop (`while !record.is_empty()`), so nothing at all is written
for it; and after each fragment the writer *sets*
`current_block_offset = HEADER_SIZE + len` instead of adding to it.
The fuel only bounds the recursion; `2*len + 2` always suffices since
every other iteration consumes at least one input byte. -/
def addRecordLoop : Nat → Nat → Bytes → Bool → Bytes × Nat
  | 0, off, _, _ => ([], off)
  | fuel + 1, off, record, firstFrag =>
    if record.isEmpty then ([], off)
    else
      let needPad := blockSize - off < headerSize
      let padded := if needPad then List.replicate (blockSize - off) 0 else []
      let off1 := if needPad then 0 else off
      let avail := blockSize - off1 - headerSize
      let fragSize := if record.length < avail then record.length else avail
      let rtype : Nat :=
        if firstFrag ∧ fragSize = record.length then 1
        else if firstFrag then 2
        else if fragSize = record.length then 4
        else 3
      let frag := emit_record rtype (record.take fragSize)
      let off2 := headerSize + fragSize
      let next := addRecordLoop fuel off2 (record.drop fragSize) false
      (padded ++ frag ++ next.1, next.2)

/-- Embeds `LogWriter::add_record`, starting from block offset `off`:
the bytes appended to the file and the new `current_block_offset`. -/
def add_record (off : Nat) (record : Bytes) : Bytes × Nat :=
  addRecordLoop (2 * record.length + 2) off record true

/-- The observable outcomes of `LogReader::read_record`:
`Ok(Some(len))` with the assembled payload and the remaining file and
block offset, `Ok(None)` (clean EOF), `Err(Corruption)`,
`Err(IOError)` (an `UnexpectedEof` anywhere except the header read),
the `panic!` of `RecordType::from` on an unknown type byte, and fuel
exhaustion (unreachable with fuel above the file length). -/
inductive ReadOutcome where
  | record (payload : Bytes) (restFile : Bytes) (blkOff : Nat)
  | eof
  | corruption
  | ioError
  | panicked
  | fuelOut
deriving Repr, DecidableEq

/-- Embeds `LogReader::read_physical_record` (with `checksum = true`,
as both the recovery path and `LogReader::new(file, true)` use):
consume block padding when fewer than `HEADER_SIZE` bytes remain in
the block, read a 7-byte header (an `UnexpectedEof` here is clean
EOF), read the payload, verify the CRC over `type || payload`
(mismatch is `Corruption`), and loop on `First`/`Middle` fragments.
The length field is read as an `i16` and cast to `usize`, hence the
sign-extension branch. -/
def readPhysicalRecord : Nat → Bytes → Nat → Bytes → ReadOutcome
  | 0, _, _, _ => .fuelOut
  | fuel + 1, file0, blkOff0, dst =>
    let needPad := blockSize - blkOff0 < headerSize
    let padLen := if needPad then blockSize - blkOff0 else 0
    if file0.length < padLen then .ioError
    else
      let file := file0.drop padLen
      let blkOff := if needPad then 0 else blkOff0
      if file.length < headerSize then .eof
      else
        let header := file.take headerSize
        let rest := file.drop headerSize
        let checksum := leVal (header.take 4)
        let lenRaw := leVal ((header.drop 4).take 2)
        let length := if lenRaw < 2 ^ 15 then lenRaw else 2 ^ 64 - (2 ^ 16 - lenRaw)
        let recordType := header.getD 6 0
        if rest.length < length then .ioError
        else
          let payload := rest.take length
          let rest2 := rest.drop length
          let blkOff2 := (blkOff + headerSize + length) % blockSize
          if crc32c (recordType :: payload) ≠ checksum then .corruption
          else if recordType = 1 ∨ recordType = 4 then .record (dst ++ payload) rest2 blkOff2
          else if recordType = 2 ∨ recordType = 3 then
            readPhysicalRecord fuel rest2 blkOff2 (dst ++ payload)
          else .panicked

/-- Embeds `LogReader::read_record` on a freshly opened reader
(`blk_off = 0`, empty destination). -/
def read_record (file : Bytes) : ReadOutcome :=
  readPhysicalRecord (file.length + 1) file 0 []

/-- C3: the claim fails on the code at the empty record.  For any
starting block offset, `add_record` of the empty byte string appends
nothing to the file (the fragmentation loop is `while
!record.is_empty()`), and reading the resulting (empty) file yields
clean EOF — so the written sequence `[""]` reads back as no records at
all instead of the empty record followed by `None`. -/
theorem wal_empty_record_lost :
    (∀ off : Nat, add_record off [] = ([], off)) ∧ read_record [] = .eof := by
  refine ⟨fun off => rfl, rfl⟩

/-! ## C6: checksum mismatches are always Corruption (`log.rs`) -/

theorem getD_append_at_length (l1 l2 : List Nat) (d : Nat) :
    (l1 ++ l2).getD l1.length d = l2.getD 0 d := by
  induction l1 with
  | nil => rfl
  | cons a l1 ih => simpa using ih

/-- C6 (amended): a CRC mismatch on a record — including the sole,
hence tail, record of a log — is returned as `Corruption`; the reader
has no tail special case.  Here the file holds a single record whose
stored checksum `c` differs from the CRC over `type || payload`. -/
theorem read_record_checksum_mismatch (c L t : Nat) (payload rest : Bytes)
    (hc : c < 2 ^ 32) (hL : payload.length = L) (hL15 : L < 2 ^ 15)
    (hbad : crc32c (t :: payload) ≠ c) :
    read_record (leBytes 4 c ++ leBytes 2 L ++ [t] ++ payload ++ rest) = .corruption := by
  unfold read_record
  have hfl : (leBytes 4 c ++ leBytes 2 L ++ [t] ++ payload ++ rest).length =
      7 + L + rest.length := by
    simp [leBytes_length]; omega
  have hgrp : leBytes 4 c ++ leBytes 2 L ++ [t] ++ payload ++ rest =
      (leBytes 4 c ++ leBytes 2 L ++ [t]) ++ (payload ++ rest) := by
    simp [List.append_assoc]
  have hhead : (leBytes 4 c ++ leBytes 2 L ++ [t]).length = 7 := by
    simp [leBytes_length]
  have htake : (leBytes 4 c ++ leBytes 2 L ++ [t] ++ payload ++ rest).take headerSize =
      leBytes 4 c ++ leBytes 2 L ++ [t] := by
    rw [hgrp]
    exact List.take_left' hhead
  have hdrop : (leBytes 4 c ++ leBytes 2 L ++ [t] ++ payload ++ rest).drop headerSize =
      payload ++ rest := by
    rw [hgrp]
    exact List.drop_left' hhead
  have hcksum : (leBytes 4 c ++ leBytes 2 L ++ [t]).take 4 = leBytes 4 c := by
    rw [List.append_assoc]
    exact List.take_left' (leBytes_length 4 c)
  have hlen2 : ((leBytes 4 c ++ leBytes 2 L ++ [t]).drop 4).take 2 = leBytes 2 L := by
    rw [List.append_assoc, List.drop_left' (leBytes_length 4 c)]
    exact List.take_left' (leBytes_length 2 L)
  have htype : (leBytes 4 c ++ leBytes 2 L ++ [t]).getD 6 0 = t := by
    have h6 : (leBytes 4 c ++ leBytes 2 L).length = 6 := by simp [leBytes_length]
    calc (leBytes 4 c ++ leBytes 2 L ++ [t]).getD 6 0
        = ((leBytes 4 c ++ leBytes 2 L) ++ [t]).getD (leBytes 4 c ++ leBytes 2 L).length 0 := by
          rw [h6]
      _ = ([t] : Bytes).getD 0 0 := getD_append_at_length _ _ _
      _ = t := rfl
  rw [hfl]
  unfold readPhysicalRecord
  simp only [Nat.sub_zero]
  rw [show (if blockSize < headerSize then blockSize else 0) = 0 from by
    norm_num [blockSize, headerSize]]
  rw [if_neg (Nat.not_lt_zero _)]
  simp only [List.drop_zero, ite_self]
  rw [if_neg (by rw [hfl]; unfold headerSize; omega)]
  rw [htake, hdrop, hcksum, hlen2, htype]
  rw [leVal_leBytes 4 c (lt_of_lt_of_le hc (by norm_num))]
  rw [leVal_leBytes 2 L (lt_of_lt_of_le hL15 (by norm_num))]
  rw [if_pos hL15]
  rw [if_neg (by simp only [List.length_append, hL]; omega)]
  rw [List.take_left' hL]
  rw [if_pos hbad]

/-- Witness for C6 (amended) at a concrete corrupt file: a zero
checksum over a zero-length `Full` record whose actual CRC is not
zero. -/
theorem read_record_checksum_mismatch_witness :
    ((0 : Nat) < 2 ^ 32 ∧ ([] : Bytes).length = 0 ∧ (0 : Nat) < 2 ^ 15 ∧
      crc32c [1] ≠ 0) ∧
    read_record (leBytes 4 0 ++ leBytes 2 0 ++ [1] ++ [] ++ []) = .corruption := by
  refine ⟨⟨by norm_num, rfl, by norm_num, by decide⟩, ?_⟩
  exact read_record_checksum_mismatch 0 0 1 [] [] (by norm_num) rfl (by norm_num) (by decide)

/-- C6 counterexample: the claim, as stated, says the reader treats a
tail-record checksum mismatch as clean EOF (`None`); at the concrete
log file `[0,0,0,0,0,0,1]` — one zero-length `Full` record with stored
checksum 0, whose computed CRC is nonzero — `read_record` yields
`Corruption`, not clean EOF. -/
theorem read_record_tail_mismatch_not_eof :
    read_record [0, 0, 0, 0, 0, 0, 1] = .corruption ∧
      read_record [0, 0, 0, 0, 0, 0, 1] ≠ .eof := by
  constructor
  · decide
  · decide

/-! ## Bloom filter (`filter.rs`)

All `u32` arithmetic of `hash` wraps; the wrap is written `% 2^32`.
The tail loop adds `buf[i] << (i*8)` for `i` descending; consecutive
wrapped additions equal one wrapped addition of the little-endian tail
value, which is how it is written here.  `h` and `delta` in
`create_filter` / `key_match` are `usize` (64-bit); the probe
accumulator never wraps there because `h < 2^32` and at most 30 deltas
below `2^48` are added. -/

/-- The 4-byte-chunk loop of `hash` from `filter.rs`. -/
def rhashBlocks : Bytes → Nat → Nat
  | b0 :: b1 :: b2 :: b3 :: rest, h =>
    let w := b0 + 256 * (b1 + 256 * (b2 + 256 * b3))
    let h1 := (h + w) % 2 ^ 32
    let h2 := h1 * 0xc6a4a793 % 2 ^ 32
    rhashBlocks rest (h2 ^^^ (h2 / 2 ^ 16))
  | buf, h =>
    if buf.isEmpty then h
    else
      let h1 := (h + leVal buf) % 2 ^ 32
      let h2 := h1 * 0xc6a4a793 % 2 ^ 32
      h2 ^^^ (h2 / 2 ^ 24)

/-- Embeds `hash(data, seed)` from `filter.rs`. -/
def rhash (data : Bytes) (seed : Nat) : Nat :=
  rhashBlocks data (seed ^^^ (0xc6a4a793 * (data.length % 2 ^ 32) % 2 ^ 32))

/-- Embeds `bloom_hash` from `filter.rs`. -/
def bloomHash (key : Bytes) : Nat := rhash key 0xbc9f1d34

/-- The double-hashing step `(h >> 7) | (h << 15)` on `usize`. -/
def bloomDelta (h : Nat) : Nat := (h / 2 ^ 7) ||| (h * 2 ^ 15)

/-- The inner probe loop of `create_filter`: set `n` bits at positions
`h % bits`, advancing `h` by `delta` each round. -/
def probeSet (bits : Nat) : Nat → Nat → Nat → Bytes → Bytes
  | 0, _, _, data => data
  | n + 1, h, delta, data =>
    let bitpos := h % bits
    probeSet bits n (h + delta) delta
      (data.set (bitpos / 8) (data.getD (bitpos / 8) 0 ||| 2 ^ (bitpos % 8)))

/-- Embeds `BloomFilterPolicy::create_filter` on an initially empty
destination.  The source clamps `bits` with `min(bits, 64)` (not the
`max` of upstream leveldb), resizes the destination to `bytes + 1`
with the trailer byte holding `hash_num`, and sets bits over the
array; every bit position is below `bytes * 8`, so the trailer byte is
never touched and the fold can run over the first `bytes` bytes with
the trailer appended. -/
def createFilter (bitsPerKey hashNum : Nat) (keys : List Bytes) : Bytes :=
  let bits1 := min (keys.length * bitsPerKey) 64
  let bytes := (bits1 + 7) / 8
  let bits := bytes * 8
  (keys.foldl (fun data key =>
      probeSet bits hashNum (bloomHash key) (bloomDelta (bloomHash key)) data)
    (List.replicate bytes 0)) ++ [hashNum]

/-- The inner probe loop of `key_match`: `false` as soon as a probed
bit is clear. -/
def probeCheck (filter : Bytes) (bits : Nat) : Nat → Nat → Nat → Bool
  | 0, _, _ => true
  | n + 1, h, delta =>
    let bitpos := h % bits
    if filter.getD (bitpos / 8) 0 &&& 2 ^ (bitpos % 8) = 0 then false
    else probeCheck filter bits n (h + delta) delta

/-- Embeds `BloomFilterPolicy::key_match`: reject filters shorter than
2 bytes, accept unconditionally when the trailer byte exceeds 30,
otherwise probe the bit array. -/
def keyMatch (key filter : Bytes) : Bool :=
  if filter.length < 2 then false
  else
    let bits := (filter.length - 1) * 8
    let hashNum := filter.getD (filter.length - 1) 0
    if hashNum > 30 then true
    else probeCheck filter bits hashNum (bloomHash key) (bloomDelta (bloomHash key))

/-- Reading one bit of the filter's bit array. -/
def filterBit (data : Bytes) (pos : Nat) : Bool :=
  (data.getD (pos / 8) 0).testBit (pos % 8)

theorem getD_set_self (l : List Nat) (i v d : Nat) (h : i < l.length) :
    (l.set i v).getD i d = v := by
  induction l generalizing i with
  | nil => simp at h
  | cons a l ih =>
    cases i with
    | zero => rfl
    | succ i =>
      simp only [List.set_cons_succ, List.getD_cons_succ]
      exact ih i (by simpa using h)

theorem getD_set_ne (l : List Nat) (i j v d : Nat) (h : i ≠ j) :
    (l.set i v).getD j d = l.getD j d := by
  induction l generalizing i j with
  | nil => simp [List.set]
  | cons a l ih =>
    cases i with
    | zero =>
      cases j with
      | zero => exact absurd rfl h
      | succ j => rfl
    | succ i =>
      cases j with
      | zero => rfl
      | succ j =>
        simp only [List.set_cons_succ, List.getD_cons_succ]
        exact ih i j (by omega)

theorem and_two_pow_eq_zero_iff (x p : Nat) :
    x &&& 2 ^ p = 0 ↔ x.testBit p = false := by
  rw [Nat.and_two_pow]
  cases h : x.testBit p <;> simp [h]

theorem length_probeSet (bits n h delta : Nat) (data : Bytes) :
    (probeSet bits n h delta data).length = data.length := by
  induction n generalizing h data with
  | zero => rfl
  | succ n ih => simp [probeSet, ih, List.length_set]

theorem filterBit_set_self (data : Bytes) (pos : Nat) (hpos : pos / 8 < data.length) :
    filterBit (data.set (pos / 8) (data.getD (pos / 8) 0 ||| 2 ^ (pos % 8))) pos = true := by
  unfold filterBit
  rw [getD_set_self _ _ _ _ hpos, Nat.testBit_lor, Nat.testBit_two_pow_self]
  simp

theorem filterBit_set_mono (data : Bytes) (i v pos : Nat)
    (hbit : filterBit data pos = true) :
    filterBit (data.set i (data.getD i 0 ||| v)) pos = true := by
  unfold filterBit at hbit ⊢
  by_cases hij : i = pos / 8
  · by_cases hlt : i < data.length
    · rw [hij] at hlt ⊢
      rw [getD_set_self _ _ _ _ hlt, Nat.testBit_lor, hbit]
      simp
    · rw [List.set_eq_of_length_le (by omega)]
      exact hbit
  · rw [getD_set_ne _ _ _ _ _ hij]
    exact hbit

theorem probeSet_mono (bits n h delta pos : Nat) (data : Bytes)
    (hbit : filterBit data pos = true) :
    filterBit (probeSet bits n h delta data) pos = true := by
  induction n generalizing h data with
  | zero => exact hbit
  | succ n ih =>
    simp only [probeSet]
    exact ih _ _ (filterBit_set_mono data _ _ pos hbit)

theorem probeSet_sets (bits n h delta : Nat) (data : Bytes)
    (hbits : bits ≤ 8 * data.length) (hbpos : 0 < bits) :
    ∀ j < n, filterBit (probeSet bits n h delta data) ((h + j * delta) % bits) = true := by
  induction n generalizing h data with
  | zero => omega
  | succ n ih =>
    intro j hj
    simp only [probeSet]
    cases j with
    | zero =>
      simp only [Nat.zero_mul, Nat.add_zero]
      apply probeSet_mono
      apply filterBit_set_self
      have : h % bits < bits := Nat.mod_lt _ hbpos
      omega
    | succ j =>
      have hx : h + (j + 1) * delta = (h + delta) + j * delta := by ring
      rw [hx]
      exact ih (h + delta) _ (by rwa [List.length_set]) j (by omega)

theorem probeCheck_of_bits (filter : Bytes) (bits n h delta : Nat)
    (hall : ∀ j < n, filterBit filter ((h + j * delta) % bits) = true) :
    probeCheck filter bits n h delta = true := by
  induction n generalizing h with
  | zero => rfl
  | succ n ih =>
    simp only [probeCheck]
    have h0 : filterBit filter (h % bits) = true := by
      have := hall 0 (by omega)
      simpa using this
    rw [if_neg]
    · apply ih
      intro j hj
      have := hall (j + 1) (by omega)
      have hx : h + (j + 1) * delta = (h + delta) + j * delta := by ring
      rw [hx] at this
      exact this
    · intro hcon
      rw [and_two_pow_eq_zero_iff] at hcon
      unfold filterBit at h0
      rw [h0] at hcon
      exact Bool.noConfusion hcon

theorem getD_append_left_of_lt (l1 l2 : List Nat) (i d : Nat) (h : i < l1.length) :
    (l1 ++ l2).getD i d = l1.getD i d := by
  induction l1 generalizing i with
  | nil => simp at h
  | cons a l1 ih =>
    cases i with
    | zero => rfl
    | succ i =>
      simp only [List.cons_append, List.getD_cons_succ]
      exact ih i (by simpa using h)

theorem filterBit_append_trailer (arr : Bytes) (x pos : Nat) (h : pos < 8 * arr.length) :
    filterBit (arr ++ [x]) pos = filterBit arr pos := by
  unfold filterBit
  rw [getD_append_left_of_lt _ _ _ _ (by omega)]

/-- C8 (amended): for every key list and every key in it, `key_match`
accepts against the filter `create_filter` builds (no false
negatives), provided `bits_per_key ≥ 1` (with `bits_per_key = 0` and a
nonempty key list the source divides by zero) and the policy's clamped
`hash_num ≤ 30`; moreover (second conjunct) any filter of length at
least two whose trailer byte exceeds 30 matches every key. -/
theorem bloom_no_false_negative (bitsPerKey hashNum : Nat) (keys : List Bytes)
    (k : Bytes) (hk : k ∈ keys) (hbpk : 1 ≤ bitsPerKey) (hhn : hashNum ≤ 30) :
    keyMatch k (createFilter bitsPerKey hashNum keys) = true ∧
      ∀ (key filter : Bytes), 2 ≤ filter.length →
        filter.getD (filter.length - 1) 0 > 30 → keyMatch key filter = true := by
  refine ⟨?_, ?_⟩
  case refine_2 =>
    intro key filter hlen htr
    unfold keyMatch
    rw [if_neg (by omega), if_pos htr]
  have hkeys : 1 ≤ keys.length := List.length_pos.mpr (List.ne_nil_of_mem hk)
  set bits1 := min (keys.length * bitsPerKey) 64 with hbits1
  set bytes := (bits1 + 7) / 8 with hbytes
  set bits := bytes * 8 with hbits
  have hbits1pos : 1 ≤ bits1 := by
    rw [hbits1]
    have : 1 ≤ keys.length * bitsPerKey := Nat.one_le_iff_ne_zero.mpr (by positivity)
    omega
  have hbytespos : 1 ≤ bytes := by rw [hbytes]; omega
  have hbitspos : 0 < bits := by rw [hbits]; omega
  -- the folded array keeps length `bytes`
  have harrlen : ∀ (ks : List Bytes) (data : Bytes),
      (ks.foldl (fun data key =>
        probeSet bits hashNum (bloomHash key) (bloomDelta (bloomHash key)) data)
          data).length = data.length := by
    intro ks
    induction ks with
    | nil => intro data; rfl
    | cons a ks ih =>
      intro data
      simp only [List.foldl_cons]
      rw [ih, length_probeSet]
  -- bits set while folding survive the rest of the fold
  have hmono : ∀ (ks : List Bytes) (data : Bytes) (pos : Nat),
      filterBit data pos = true →
      filterBit (ks.foldl (fun data key =>
        probeSet bits hashNum (bloomHash key) (bloomDelta (bloomHash key)) data)
          data) pos = true := by
    intro ks
    induction ks with
    | nil => intro data pos h; exact h
    | cons a ks ih =>
      intro data pos h
      simp only [List.foldl_cons]
      exact ih _ pos (probeSet_mono _ _ _ _ _ _ h)
  -- after the fold, every probe position of `k` is set
  obtain ⟨l1, l2, rfl⟩ := List.append_of_mem hk
  have hsets : ∀ j < hashNum,
      filterBit ((l1 ++ k :: l2).foldl (fun data key =>
        probeSet bits hashNum (bloomHash key) (bloomDelta (bloomHash key)) data)
          (List.replicate bytes 0))
        ((bloomHash k + j * bloomDelta (bloomHash k)) % bits) = true := by
    intro j hj
    rw [List.foldl_append, List.foldl_cons]
    apply hmono
    apply probeSet_sets
    · rw [harrlen, List.length_replicate]
      omega
    · exact hbitspos
    · exact hj
  -- unfold key_match on the assembled filter
  unfold keyMatch createFilter
  simp only [← hbits1, ← hbytes, ← hbits]
  have hfl : ((l1 ++ k :: l2).foldl (fun data key =>
      probeSet bits hashNum (bloomHash key) (bloomDelta (bloomHash key)) data)
        (List.replicate bytes 0) ++ [hashNum]).length = bytes + 1 := by
    rw [List.length_append, harrlen, List.length_replicate]
    rfl
  rw [if_neg (by rw [hfl]; omega)]
  have htrailer : ((l1 ++ k :: l2).foldl (fun data key =>
      probeSet bits hashNum (bloomHash key) (bloomDelta (bloomHash key)) data)
        (List.replicate bytes 0) ++ [hashNum]).getD
      (((l1 ++ k :: l2).foldl (fun data key =>
        probeSet bits hashNum (bloomHash key) (bloomDelta (bloomHash key)) data)
          (List.replicate bytes 0) ++ [hashNum]).length - 1) 0 = hashNum := by
    rw [hfl]
    simp only [Nat.add_sub_cancel]
    have := getD_append_at_length ((l1 ++ k :: l2).foldl (fun data key =>
      probeSet bits hashNum (bloomHash key) (bloomDelta (bloomHash key)) data)
        (List.replicate bytes 0)) [hashNum] 0
    rw [harrlen, List.length_replicate] at this
    exact this
  rw [htrailer]
  rw [if_neg (by omega)]
  apply probeCheck_of_bits
  intro j hj
  rw [hfl]
  simp only [Nat.add_sub_cancel]
  rw [filterBit_append_trailer]
  · rw [← hbits]
    exact hsets j hj
  · have hmod : (bloomHash k + j * bloomDelta (bloomHash k)) % bits < bits :=
      Nat.mod_lt _ hbitspos
    rw [harrlen, List.length_replicate, ← hbits]
    omega

/-- Witness for C8: the two-byte key `[104,105]`, alone in the key
list, with the default `bits_per_key = 10` and a clamped
`hash_num = 6`, matches its own filter; and the trailer clause applied
at the two-byte filter `[0, 31]` (trailer byte 31 > 30) accepts the
empty key. -/
theorem bloom_no_false_negative_witness :
    ([104, 105] ∈ [([104, 105] : Bytes)] ∧ 1 ≤ 10 ∧ 6 ≤ 30 ∧
        2 ≤ ([0, 31] : Bytes).length ∧ ([0, 31] : Bytes).getD 1 0 > 30) ∧
      keyMatch [104, 105] (createFilter 10 6 [[104, 105]]) = true ∧
      keyMatch [] [0, 31] = true :=
  ⟨⟨List.mem_singleton.mpr rfl, by norm_num, by norm_num, by norm_num, by norm_num⟩,
    (bloom_no_false_negative 10 6 [[104, 105]] [104, 105]
      (List.mem_singleton.mpr rfl) (by norm_num) (by norm_num)).1,
    (bloom_no_false_negative 10 6 [[104, 105]] [104, 105]
      (List.mem_singleton.mpr rfl) (by norm_num) (by norm_num)).2
      [] [0, 31] (by norm_num) (by norm_num)⟩

/-- C8 counterexample: the claim's clause that any filter whose
trailer byte exceeds 30 matches every key fails at the one-byte filter
`[31]`: its trailer byte is 31 > 30, yet `key_match` rejects every key
because it first rejects filters shorter than two bytes. -/
theorem keyMatch_short_reserved_filter_false :
    keyMatch [] [31] = false ∧ (31 : Nat) > 30 := by
  constructor
  · rfl
  · norm_num

/-! ## Block builder and block iterator
(`sstable/block_builder.rs`, `table/block.rs`)

`BlockBuilder::add` asserts strict key monotonicity; the claim's
inputs satisfy it, so the assertion is not modelled.  The iterator's
value slice is represented by its offset and length into the block
contents. -/

/-- The shared-prefix loop of `BlockBuilder::add`. -/
def sharedPrefixLen : Bytes → Bytes → Nat
  | a :: as, b :: bs => if a = b then 1 + sharedPrefixLen as bs else 0
  | _, _ => 0

/-- The builder state of `BlockBuilder` (`sstable/block_builder.rs`). -/
structure BlockBuilder where
  blockRestartInterval : Nat
  buffer : Bytes
  restarts : List Nat
  counter : Nat
  lastKey : Bytes
  restartCounter : Nat
deriving Repr, DecidableEq

/-- Embeds `BlockBuilder::new`. -/
def blockBuilderNew (interval : Nat) : BlockBuilder :=
  { blockRestartInterval := interval, buffer := [], restarts := [0],
    counter := 0, lastKey := [], restartCounter := 0 }

/-- Embeds `BlockBuilder::add`. -/
def blockBuilderAdd (b : BlockBuilder) (key val : Bytes) : BlockBuilder :=
  let inRun := b.restartCounter < b.blockRestartInterval
  let shared := if inRun then sharedPrefixLen b.lastKey key else 0
  let restarts := if inRun then b.restarts else b.restarts ++ [b.buffer.length]
  let restartCounter := if inRun then b.restartCounter else 0
  let noShared := key.length - shared
  { b with
    buffer := b.buffer ++ writeVarint shared ++ writeVarint noShared ++
      writeVarint val.length ++ key.drop shared ++ val,
    restarts := restarts,
    lastKey := b.lastKey.take shared ++ key.drop shared,
    restartCounter := restartCounter + 1,
    counter := b.counter + 1 }

/-- Embeds `BlockBuilder::finish`: append the restart-offset array
(`u32` little-endian each) and the restart count. -/
def blockBuilderFinish (b : BlockBuilder) : Bytes :=
  b.buffer ++ (b.restarts.map (leBytes 4)).flatten ++ leBytes 4 b.restarts.length

/-- A parsed block (`Block` in `table/block.rs`). -/
structure Block where
  content : Bytes
  restartOffset : Nat
  numRestarts : Nat
deriving Repr, DecidableEq

/-- Embeds `Block::from_raw`. -/
def blockFromRaw (content : Bytes) : Option Block :=
  let n := content.length
  if n < 4 then none
  else
    let numRestarts := leVal ((content.drop (n - 4)).take 4)
    if numRestarts > (n - 4) / 4 then none
    else some { content := content, restartOffset := n - numRestarts * 4 - 4,
                numRestarts := numRestarts }

/-- Embeds `BlockIter::get_restart_point`. -/
def getRestartPoint (blk : Block) (index : Nat) : Nat :=
  leVal ((blk.content.drop (blk.restartOffset + 4 * index)).take 4)

/-- Embeds `BlockIter::decode_entry`: fast path when the three first
bytes all lack the continuation bit (`shared | non_shared | value_len
< 128` in the source, which for bytes is exactly that), else three
varint32 reads; `none` charts the `Corruption` returns. -/
def decodeEntry (blk : Block) (offset : Nat) : Option (Nat × Nat × Nat × Nat) :=
  if blk.restartOffset - offset < 3 then none
  else
    let data := blk.content.drop offset
    let b0 := data.getD 0 0
    let b1 := data.getD 1 0
    let b2 := data.getD 2 0
    let parsed : Option (Nat × Nat × Nat × Nat) :=
      if b0 < 128 ∧ b1 < 128 ∧ b2 < 128 then some (b0, b1, b2, 3)
      else
        match readVarU32 data with
        | none => none
        | some (shared, r1) =>
          match readVarU32 r1 with
          | none => none
          | some (nonShared, r2) =>
            match readVarU32 r2 with
            | none => none
            | some (valueLen, r3) =>
              some (shared, nonShared, valueLen, data.length - r3.length)
    match parsed with
    | none => none
    | some (shared, nonShared, valueLen, step) =>
      if blk.restartOffset - offset - step < nonShared + valueLen then none
      else some (shared, nonShared, valueLen, step)

/-- The cursor state of `BlockIter` relevant to `seek`. -/
structure BlockIterState where
  current : Nat
  restartIndex : Nat
  key : Bytes
  valueOffset : Nat
  valueLen : Nat
deriving Repr, DecidableEq

/-- The restart-index catch-up loop inside `parse_next_entry`;
its fuel is `num_restarts`, which bounds the index. -/
def adjustRestartIndexGo (blk : Block) (current : Nat) : Nat → Nat → Nat
  | 0, ri => ri
  | fuel + 1, ri =>
    if ri + 1 < blk.numRestarts ∧ getRestartPoint blk (ri + 1) < current then
      adjustRestartIndexGo blk current fuel (ri + 1)
    else ri

/-- Outcome of one `parse_next_entry` call. -/
inductive ParseResult where
  | ok (st : BlockIterState)
  | atEnd (st : BlockIterState)
  | corrupt
deriving Repr, DecidableEq

/-- Embeds `BlockIter::parse_next_entry`. -/
def parseNextEntry (blk : Block) (st : BlockIterState) : ParseResult :=
  let current := st.valueOffset + st.valueLen
  if current ≥ blk.restartOffset then
    .atEnd { st with current := blk.restartOffset, restartIndex := blk.numRestarts }
  else
    match decodeEntry blk current with
    | none => .corrupt
    | some (shared, nonShared, valueLen, step) =>
      let offset := current + step
      let key := st.key.take shared ++ (blk.content.drop offset).take nonShared
      .ok { current := current,
            restartIndex := adjustRestartIndexGo blk current blk.numRestarts st.restartIndex,
            key := key, valueOffset := offset + nonShared, valueLen := valueLen }

/-- The observable outcomes of `BlockIter::seek`:
positioned on an entry; finished with the iterator invalid; a latched
`Corruption`; a panic (the `u32` underflow of `right = mid - 1` at
`mid = 0`, or the out-of-range assert in `get_restart_point`); or the
fuel giving out — which charts the non-termination of the
`left = mid` branch when `mid` equals `left`. -/
inductive SeekOutcome where
  | positioned (st : BlockIterState)
  | notValid (st : BlockIterState)
  | corrupt
  | panicked
  | fuelOut
deriving Repr, DecidableEq

/-- Result of the binary-search loop of `seek`. -/
inductive BinSearchResult where
  | done (left : Nat)
  | corrupt
  | panicked
  | fuelOut
deriving Repr, DecidableEq

/-- Embeds the binary-search loop of `BlockIter::seek`: while
`left < right`, compare the first key of restart region
`mid = (left + right) / 2` with the target; on `Less` set
`left = mid`, otherwise set `right = mid - 1` — which underflows the
`u32` when `mid = 0` (`panicked`). -/
def seekBinary (blk : Block) (target : Bytes) : Nat → Nat → Nat → BinSearchResult
  | 0, _, _ => .fuelOut
  | fuel + 1, left, right =>
    if left < right then
      let mid := (left + right) / 2
      if mid ≥ blk.numRestarts then .panicked
      else
        let regionOffset := getRestartPoint blk mid
        match decodeEntry blk regionOffset with
        | none => .corrupt
        | some (shared, nonShared, _, step) =>
          if shared ≠ 0 then .corrupt
          else
            let key := (blk.content.drop (regionOffset + step)).take nonShared
            if bytesCmp key target = .lt then seekBinary blk target fuel mid right
            else if mid = 0 then .panicked
            else seekBinary blk target fuel left (mid - 1)
    else .done left

/-- The forward-scan loop of `seek` after the binary search. -/
def seekScan (blk : Block) (target : Bytes) : Nat → BlockIterState → SeekOutcome
  | 0, _ => .fuelOut
  | fuel + 1, st =>
    match parseNextEntry blk st with
    | .corrupt => .corrupt
    | .atEnd st2 => .notValid st2
    | .ok st2 =>
      if bytesCmp st2.key target ≠ .lt then .positioned st2
      else seekScan blk target fuel st2

/-- Embeds `BlockIter::seek`: binary search over restart points from
`(0, num_restarts - 1)`, then `seek_to_restart_point(left)` and a
forward scan. -/
def blockSeek (blk : Block) (target : Bytes) (fuel : Nat) : SeekOutcome :=
  match seekBinary blk target fuel 0 (blk.numRestarts - 1) with
  | .corrupt => .corrupt
  | .panicked => .panicked
  | .fuelOut => .fuelOut
  | .done left =>
    seekScan blk target fuel
      { current := getRestartPoint blk left, restartIndex := left, key := [],
        valueOffset := getRestartPoint blk left, valueLen := 0 }

/-- C9: the claim fails on the code.  Build a block from the strictly
increasing pairs `([97],[49]), ([98],[50])` with restart interval 1
(so two restart points) and seek the first key `[97]`: the binary
search computes `mid = (0+1)/2 = 0`, finds the restart key `[97]` not
less than the target, and executes `right = mid - 1`, an unsigned
underflow — a panic, not an iterator positioned at `[97]`.  (The
result does not change with more fuel: the panic is reached on the
first loop iteration.) -/
theorem blockSeek_underflows_on_first_key :
    (blockFromRaw (blockBuilderFinish (blockBuilderAdd
        (blockBuilderAdd (blockBuilderNew 1) [97] [49]) [98] [50]))).map
      (fun blk => blockSeek blk [97] 100) = some .panicked := by
  decide

/-! ## VersionEdit (`version_edit.rs`)

`decode`'s loop keeps three mutable temporaries (`level`, `key`,
`file_meta`); every arm writes them before any read on its success
path and `allowed_seeks` is never written (staying
`FileMetaData::default()`'s 0), so each iteration is pure and the loop
is embedded as a step function.  Comparator names are `String`s in the
source — always valid UTF-8, on which `from_utf8_lossy` is the
identity — and are carried here as their raw bytes.  `u32` casts of
lengths appear as `% 2^32`. -/

/-- Modelled from the spec: `NUM_LEVELS` lives in the crate's `consts`
module, which is absent from the source tree; the spec fixes the level
count at 7 ("`files[0..L]` where L is the configured max level
(default 7)"). -/
def NUM_LEVELS : Nat := 7

/-- Embeds `FileMetaData` from `version.rs` (keys as raw internal-key
bytes). -/
structure FileMetaData where
  allowed_seeks : Nat
  number : Nat
  file_size : Nat
  smallest : Bytes
  largest : Bytes
deriving Repr, DecidableEq

/-- Embeds `VersionEdit` from `version_edit.rs`. -/
structure VersionEdit where
  comparator : Option Bytes
  log_number : Option Nat
  prev_log_number : Option Nat
  next_file_number : Option Nat
  last_sequence : Option Nat
  compact_pointers : List (Nat × Bytes)
  deleted_files : List (Nat × Nat)
  new_files : List (Nat × FileMetaData)
deriving Repr, DecidableEq

/-- Embeds `VersionEdit::default()` / `VersionEdit::new()`. -/
def versionEditEmpty : VersionEdit :=
  { comparator := none, log_number := none, prev_log_number := none,
    next_file_number := none, last_sequence := none,
    compact_pointers := [], deleted_files := [], new_files := [] }

/-- Embeds `VersionEdit::set_comparator`. -/
def VersionEdit.setComparator (e : VersionEdit) (name : Bytes) : VersionEdit :=
  { e with comparator := some name }

/-- Embeds `VersionEdit::set_log_number`. -/
def VersionEdit.setLogNumber (e : VersionEdit) (n : Nat) : VersionEdit :=
  { e with log_number := some n }

/-- Embeds `VersionEdit::set_prev_log_number`. -/
def VersionEdit.setPrevLogNumber (e : VersionEdit) (n : Nat) : VersionEdit :=
  { e with prev_log_number := some n }

/-- Embeds `VersionEdit::set_next_file_number`. -/
def VersionEdit.setNextFileNumber (e : VersionEdit) (n : Nat) : VersionEdit :=
  { e with next_file_number := some n }

/-- Embeds `VersionEdit::set_last_sequence`. -/
def VersionEdit.setLastSequence (e : VersionEdit) (n : Nat) : VersionEdit :=
  { e with last_sequence := some n }

/-- Embeds `VersionEdit::add_compact_pointer`. -/
def VersionEdit.addCompactPointer (e : VersionEdit) (level : Nat) (key : Bytes) :
    VersionEdit :=
  { e with compact_pointers := e.compact_pointers ++ [(level, key)] }

/-- Embeds `VersionEdit::add_delete_file`. -/
def VersionEdit.addDeleteFile (e : VersionEdit) (level num : Nat) : VersionEdit :=
  { e with deleted_files := e.deleted_files ++ [(level, num)] }

/-- Embeds `VersionEdit::add_new_file` (`allowed_seeks` is set to 0). -/
def VersionEdit.addNewFile (e : VersionEdit) (level num size : Nat)
    (smallest largest : Bytes) : VersionEdit :=
  { e with new_files := e.new_files ++
      [(level, ⟨0, num, size, smallest, largest⟩)] }

/-- One compact-pointer record of `VersionEdit::encode`. -/
def encodeCompactPointer (p : Nat × Bytes) : Bytes :=
  writeVarint 5 ++ writeVarint p.1 ++ writeVarint (p.2.length % 2 ^ 32) ++ p.2

/-- One deleted-file record of `VersionEdit::encode`. -/
def encodeDeletedFile (p : Nat × Nat) : Bytes :=
  writeVarint 6 ++ writeVarint p.1 ++ writeVarint p.2

/-- One new-file record of `VersionEdit::encode`. -/
def encodeNewFile (p : Nat × FileMetaData) : Bytes :=
  writeVarint 7 ++ writeVarint p.1 ++ writeVarint p.2.number ++
    writeVarint p.2.file_size ++
    writeVarint (p.2.smallest.length % 2 ^ 32) ++ p.2.smallest ++
    writeVarint (p.2.largest.length % 2 ^ 32) ++ p.2.largest

/-- Embeds `VersionEdit::encode`: each present optional field as a
(tag, payload) pair — tags 1, 2, 9, 3, 4 in this order — then the
compact pointers (tag 5), deleted files (tag 6) and new files
(tag 7). -/
def versionEditEncode (e : VersionEdit) : Bytes :=
  (match e.comparator with
   | some c => writeVarint 1 ++ writeVarint (c.length % 2 ^ 32) ++ c
   | none => []) ++
  (match e.log_number with
   | some n => writeVarint 2 ++ writeVarint n
   | none => []) ++
  (match e.prev_log_number with
   | some n => writeVarint 9 ++ writeVarint n
   | none => []) ++
  (match e.next_file_number with
   | some n => writeVarint 3 ++ writeVarint n
   | none => []) ++
  (match e.last_sequence with
   | some n => writeVarint 4 ++ writeVarint n
   | none => []) ++
  (e.compact_pointers.map encodeCompactPointer).flatten ++
  (e.deleted_files.map encodeDeletedFile).flatten ++
  (e.new_files.map encodeNewFile).flatten

/-- One iteration of `VersionEdit::decode`'s loop: read a tag and its
payload, returning the updated edit and the remaining input, or the
`Corruption` outcome (`.error ()`): a failed read, a level at or above
`NUM_LEVELS` (`get_level`), an empty internal key
(`InternalKey::decode` returns `false` on empty input,
`get_internal_key` turns that into `Corruption`), or an unknown
tag. -/
def decodeStep (e : VersionEdit) (src : Bytes) : Except Unit (VersionEdit × Bytes) :=
  match readVarU32 src with
  | none => .error ()
  | some (tag, r) =>
    if tag = 1 then
      match readLengthPrefixedSlice r with
      | none => .error ()
      | some (s, r2) => .ok ({ e with comparator := some s }, r2)
    else if tag = 2 then
      match readVarU64 r with
      | none => .error ()
      | some (n, r2) => .ok ({ e with log_number := some n }, r2)
    else if tag = 9 then
      match readVarU64 r with
      | none => .error ()
      | some (n, r2) => .ok ({ e with prev_log_number := some n }, r2)
    else if tag = 3 then
      match readVarU64 r with
      | none => .error ()
      | some (n, r2) => .ok ({ e with next_file_number := some n }, r2)
    else if tag = 4 then
      match readVarU64 r with
      | none => .error ()
      | some (n, r2) => .ok ({ e with last_sequence := some n }, r2)
    else if tag = 5 then
      match readVarU32 r with
      | none => .error ()
      | some (l, r2) =>
        if l < NUM_LEVELS then
          match readLengthPrefixedSlice r2 with
          | none => .error ()
          | some (k, r3) =>
            if k.isEmpty then .error ()
            else .ok ({ e with compact_pointers := e.compact_pointers ++ [(l, k)] }, r3)
        else .error ()
    else if tag = 6 then
      match readVarU32 r with
      | none => .error ()
      | some (l, r2) =>
        if l < NUM_LEVELS then
          match readVarU64 r2 with
          | none => .error ()
          | some (num, r3) =>
            .ok ({ e with deleted_files := e.deleted_files ++ [(l, num)] }, r3)
        else .error ()
    else if tag = 7 then
      match readVarU32 r with
      | none => .error ()
      | some (l, r2) =>
        if l < NUM_LEVELS then
          match readVarU64 r2 with
          | none => .error ()
          | some (num, r3) =>
            match readVarU64 r3 with
            | none => .error ()
            | some (size, r4) =>
              match readLengthPrefixedSlice r4 with
              | none => .error ()
              | some (small, r5) =>
                if small.isEmpty then .error ()
                else
                  match readLengthPrefixedSlice r5 with
                  | none => .error ()
                  | some (large, r6) =>
                    if large.isEmpty then .error ()
                    else .ok ({ e with new_files := e.new_files ++
                        [(l, ⟨0, num, size, small, large⟩)] }, r6)
        else .error ()
    else .error ()

/-- Embeds the `while msg.is_none() && !src.is_empty()` loop of
`VersionEdit::decode`.  The fuel bounds iterations; every iteration
consumes at least the tag byte, so the input length plus one always
suffices. -/
def decodeLoop : Nat → VersionEdit → Bytes → Except Unit VersionEdit
  | _, e, [] => .ok e
  | 0, _, _ :: _ => .error ()
  | fuel + 1, e, src =>
    match decodeStep e src with
    | .error _ => .error ()
    | .ok (e2, r) => decodeLoop fuel e2 r

/-- Embeds `VersionEdit::decode` applied to an edit `init` (the claim
decodes into a fresh `VersionEdit`, i.e. `versionEditEmpty`). -/
def versionEditDecode (init : VersionEdit) (src : Bytes) : Except Unit VersionEdit :=
  decodeLoop (src.length + 1) init src

/-! ### Per-field step lemmas for `decodeStep` -/

theorem decodeStep_cmp (e : VersionEdit) (c : Bytes) (hc : c.length < 2 ^ 32)
    (rest : Bytes) :
    decodeStep e (writeVarint 1 ++ writeVarint (c.length % 2 ^ 32) ++ c ++ rest) =
      .ok ({ e with comparator := some c }, rest) := by
  unfold decodeStep
  rw [Nat.mod_eq_of_lt hc]
  have h1 : readVarU32 (writeVarint 1 ++ (writeVarint c.length ++ (c ++ rest))) =
      some (1, writeVarint c.length ++ (c ++ rest)) :=
    readVarU32_writeVarint 1 _ (by norm_num)
  have h2 : readLengthPrefixedSlice (writeVarint c.length ++ (c ++ rest)) =
      some (c, rest) := by
    simpa [writeLengthPrefixedSlice, List.append_assoc] using
      readLengthPrefixedSlice_write c rest hc
  simp [List.append_assoc, h1, h2]

theorem decodeStep_log (e : VersionEdit) (n : Nat) (hn : n < 2 ^ 64) (rest : Bytes) :
    decodeStep e (writeVarint 2 ++ writeVarint n ++ rest) =
      .ok ({ e with log_number := some n }, rest) := by
  unfold decodeStep
  have h1 : readVarU32 (writeVarint 2 ++ (writeVarint n ++ rest)) =
      some (2, writeVarint n ++ rest) :=
    readVarU32_writeVarint 2 _ (by norm_num)
  have h2 : readVarU64 (writeVarint n ++ rest) = some (n, rest) :=
    readVarU64_writeVarint n rest hn
  simp [List.append_assoc, h1, h2]

theorem decodeStep_prevLog (e : VersionEdit) (n : Nat) (hn : n < 2 ^ 64) (rest : Bytes) :
    decodeStep e (writeVarint 9 ++ writeVarint n ++ rest) =
      .ok ({ e with prev_log_number := some n }, rest) := by
  unfold decodeStep
  have h1 : readVarU32 (writeVarint 9 ++ (writeVarint n ++ rest)) =
      some (9, writeVarint n ++ rest) :=
    readVarU32_writeVarint 9 _ (by norm_num)
  have h2 : readVarU64 (writeVarint n ++ rest) = some (n, rest) :=
    readVarU64_writeVarint n rest hn
  simp [List.append_assoc, h1, h2]

theorem decodeStep_nextFile (e : VersionEdit) (n : Nat) (hn : n < 2 ^ 64) (rest : Bytes) :
    decodeStep e (writeVarint 3 ++ writeVarint n ++ rest) =
      .ok ({ e with next_file_number := some n }, rest) := by
  unfold decodeStep
  have h1 : readVarU32 (writeVarint 3 ++ (writeVarint n ++ rest)) =
      some (3, writeVarint n ++ rest) :=
    readVarU32_writeVarint 3 _ (by norm_num)
  have h2 : readVarU64 (writeVarint n ++ rest) = some (n, rest) :=
    readVarU64_writeVarint n rest hn
  simp [List.append_assoc, h1, h2]

theorem decodeStep_lastSeq (e : VersionEdit) (n : Nat) (hn : n < 2 ^ 64) (rest : Bytes) :
    decodeStep e (writeVarint 4 ++ writeVarint n ++ rest) =
      .ok ({ e with last_sequence := some n }, rest) := by
  unfold decodeStep
  have h1 : readVarU32 (writeVarint 4 ++ (writeVarint n ++ rest)) =
      some (4, writeVarint n ++ rest) :=
    readVarU32_writeVarint 4 _ (by norm_num)
  have h2 : readVarU64 (writeVarint n ++ rest) = some (n, rest) :=
    readVarU64_writeVarint n rest hn
  simp [List.append_assoc, h1, h2]

theorem decodeStep_cp (e : VersionEdit) (l : Nat) (k : Bytes)
    (hl : l < NUM_LEVELS) (hk : k ≠ []) (hklen : k.length < 2 ^ 32) (rest : Bytes) :
    decodeStep e (encodeCompactPointer (l, k) ++ rest) =
      .ok ({ e with compact_pointers := e.compact_pointers ++ [(l, k)] }, rest) := by
  unfold decodeStep encodeCompactPointer
  simp only
  rw [Nat.mod_eq_of_lt hklen]
  have h1 : readVarU32 (writeVarint 5 ++ (writeVarint l ++ (writeVarint k.length ++ (k ++ rest)))) =
      some (5, writeVarint l ++ (writeVarint k.length ++ (k ++ rest))) :=
    readVarU32_writeVarint 5 _ (by norm_num)
  have h2 : readVarU32 (writeVarint l ++ (writeVarint k.length ++ (k ++ rest))) =
      some (l, writeVarint k.length ++ (k ++ rest)) :=
    readVarU32_writeVarint l _ (lt_trans hl (by norm_num [NUM_LEVELS]))
  have h3 : readLengthPrefixedSlice (writeVarint k.length ++ (k ++ rest)) =
      some (k, rest) := by
    simpa [writeLengthPrefixedSlice, List.append_assoc] using
      readLengthPrefixedSlice_write k rest hklen
  simp [List.append_assoc, h1, h2, h3, hl, hk]

theorem decodeStep_df (e : VersionEdit) (l num : Nat)
    (hl : l < NUM_LEVELS) (hnum : num < 2 ^ 64) (rest : Bytes) :
    decodeStep e (encodeDeletedFile (l, num) ++ rest) =
      .ok ({ e with deleted_files := e.deleted_files ++ [(l, num)] }, rest) := by
  unfold decodeStep encodeDeletedFile
  simp only
  have h1 : readVarU32 (writeVarint 6 ++ (writeVarint l ++ (writeVarint num ++ rest))) =
      some (6, writeVarint l ++ (writeVarint num ++ rest)) :=
    readVarU32_writeVarint 6 _ (by norm_num)
  have h2 : readVarU32 (writeVarint l ++ (writeVarint num ++ rest)) =
      some (l, writeVarint num ++ rest) :=
    readVarU32_writeVarint l _ (lt_trans hl (by norm_num [NUM_LEVELS]))
  have h3 : readVarU64 (writeVarint num ++ rest) = some (num, rest) :=
    readVarU64_writeVarint num rest hnum
  simp [List.append_assoc, h1, h2, h3, hl]

theorem decodeStep_nf (e : VersionEdit) (l : Nat) (f : FileMetaData)
    (hl : l < NUM_LEVELS) (has : f.allowed_seeks = 0)
    (hnum : f.number < 2 ^ 64) (hsize : f.file_size < 2 ^ 64)
    (hsm : f.smallest ≠ []) (hsmlen : f.smallest.length < 2 ^ 32)
    (hlg : f.largest ≠ []) (hlglen : f.largest.length < 2 ^ 32) (rest : Bytes) :
    decodeStep e (encodeNewFile (l, f) ++ rest) =
      .ok ({ e with new_files := e.new_files ++ [(l, f)] }, rest) := by
  obtain ⟨as, num, size, small, large⟩ := f
  simp only at has hnum hsize hsm hsmlen hlg hlglen
  subst has
  unfold decodeStep encodeNewFile
  simp only
  rw [Nat.mod_eq_of_lt hsmlen, Nat.mod_eq_of_lt hlglen]
  have h1 : readVarU32 (writeVarint 7 ++ (writeVarint l ++ (writeVarint num ++
      (writeVarint size ++ (writeVarint small.length ++ (small ++
        (writeVarint large.length ++ (large ++ rest)))))))) =
      some (7, writeVarint l ++ (writeVarint num ++ (writeVarint size ++
        (writeVarint small.length ++ (small ++
          (writeVarint large.length ++ (large ++ rest))))))) :=
    readVarU32_writeVarint 7 _ (by norm_num)
  have h2 : readVarU32 (writeVarint l ++ (writeVarint num ++ (writeVarint size ++
      (writeVarint small.length ++ (small ++
        (writeVarint large.length ++ (large ++ rest))))))) =
      some (l, writeVarint num ++ (writeVarint size ++
        (writeVarint small.length ++ (small ++
          (writeVarint large.length ++ (large ++ rest)))))) :=
    readVarU32_writeVarint l _ (lt_trans hl (by norm_num [NUM_LEVELS]))
  have h3 : readVarU64 (writeVarint num ++ (writeVarint size ++
      (writeVarint small.length ++ (small ++
        (writeVarint large.length ++ (large ++ rest)))))) =
      some (num, writeVarint size ++ (writeVarint small.length ++ (small ++
        (writeVarint large.length ++ (large ++ rest))))) :=
    readVarU64_writeVarint num _ hnum
  have h4 : readVarU64 (writeVarint size ++ (writeVarint small.length ++ (small ++
      (writeVarint large.length ++ (large ++ rest))))) =
      some (size, writeVarint small.length ++ (small ++
        (writeVarint large.length ++ (large ++ rest)))) :=
    readVarU64_writeVarint size _ hsize
  have h5 : readLengthPrefixedSlice (writeVarint small.length ++ (small ++
      (writeVarint large.length ++ (large ++ rest)))) =
      some (small, writeVarint large.length ++ (large ++ rest)) := by
    simpa [writeLengthPrefixedSlice, List.append_assoc] using
      readLengthPrefixedSlice_write small (writeVarint large.length ++ (large ++ rest)) hsmlen
  have h6 : readLengthPrefixedSlice (writeVarint large.length ++ (large ++ rest)) =
      some (large, rest) := by
    simpa [writeLengthPrefixedSlice, List.append_assoc] using
      readLengthPrefixedSlice_write large rest hlglen
  simp [List.append_assoc, h1, h2, h3, h4, h5, h6, hl, hsm, hlg]

/-! ### Chaining decode steps over a concatenation of records -/

/-- From `e`, consuming the byte items in order arrives at `e3`; each
item is nonempty and decodes as one `decodeStep` regardless of what
follows it. -/
inductive Steps : VersionEdit → List Bytes → VersionEdit → Prop where
  | nil (e : VersionEdit) : Steps e [] e
  | cons (e e2 e3 : VersionEdit) (item : Bytes) (items : List Bytes)
      (hne : item ≠ [])
      (hstep : ∀ rest, decodeStep e (item ++ rest) = .ok (e2, rest))
      (htail : Steps e2 items e3) : Steps e (item :: items) e3

theorem Steps.append_steps (e e2 e3 : VersionEdit) (l1 l2 : List Bytes)
    (h1 : Steps e l1 e2) (h2 : Steps e2 l2 e3) : Steps e (l1 ++ l2) e3 := by
  induction h1 with
  | nil => simpa using h2
  | cons a b c item items hne hstep htail ih =>
    exact Steps.cons a b e3 item (items ++ l2) hne hstep (ih h2)

theorem Steps.count_le_flatten (e e3 : VersionEdit) (items : List Bytes)
    (h : Steps e items e3) : items.length ≤ items.flatten.length := by
  induction h with
  | nil => simp
  | cons a b c item its hne hstep htail ih =>
    have : 1 ≤ item.length := by
      cases item with
      | nil => exact absurd rfl hne
      | cons x xs => simp
    simp only [List.length_cons, List.flatten_cons, List.length_append]
    omega

theorem decodeLoop_steps (e e3 : VersionEdit) (items : List Bytes)
    (h : Steps e items e3) :
    ∀ fuel, items.length < fuel → decodeLoop fuel e items.flatten = .ok e3 := by
  induction h with
  | nil =>
    intro fuel _
    simp [decodeLoop]
  | cons a b c item items hne hstep htail ih =>
    intro fuel hfuel
    match fuel, hfuel with
    | f + 1, hfuel =>
      rw [List.flatten_cons]
      match item, hne with
      | x :: xs, _ =>
        rw [List.cons_append]
        show decodeLoop (f + 1) a ((x :: xs) ++ items.flatten) = .ok c
        rw [show decodeLoop (f + 1) a ((x :: xs) ++ items.flatten) =
            (match decodeStep a ((x :: xs) ++ items.flatten) with
             | .error _ => .error ()
             | .ok (e2, r) => decodeLoop f e2 r) from rfl]
        rw [hstep items.flatten]
        exact ih f (by simpa using Nat.lt_of_succ_lt_succ hfuel)

/-- Well-formedness of a `VersionEdit` built through the public
setters: the numeric fields fit their Rust `u64` types, lengths fit
`u32`, every level is below `NUM_LEVELS`, every internal key is
nonempty, and `allowed_seeks` is the 0 that `add_new_file` writes. -/
def WfEdit (e : VersionEdit) : Prop :=
  (∀ c ∈ e.comparator, c.length < 2 ^ 32) ∧
  (∀ n ∈ e.log_number, n < 2 ^ 64) ∧
  (∀ n ∈ e.prev_log_number, n < 2 ^ 64) ∧
  (∀ n ∈ e.next_file_number, n < 2 ^ 64) ∧
  (∀ n ∈ e.last_sequence, n < 2 ^ 64) ∧
  (∀ p ∈ e.compact_pointers, p.1 < NUM_LEVELS ∧ p.2 ≠ [] ∧ p.2.length < 2 ^ 32) ∧
  (∀ p ∈ e.deleted_files, p.1 < NUM_LEVELS ∧ p.2 < 2 ^ 64) ∧
  (∀ p ∈ e.new_files, p.1 < NUM_LEVELS ∧ p.2.allowed_seeks = 0 ∧
    p.2.number < 2 ^ 64 ∧ p.2.file_size < 2 ^ 64 ∧
    p.2.smallest ≠ [] ∧ p.2.smallest.length < 2 ^ 32 ∧
    p.2.largest ≠ [] ∧ p.2.largest.length < 2 ^ 32)

/-- The comparator record of `encode`, as a zero-or-one item list. -/
def cmpItems : Option Bytes → List Bytes
  | some c => [writeVarint 1 ++ writeVarint (c.length % 2 ^ 32) ++ c]
  | none => []

/-- A numeric (tag, varint64) record of `encode`, as a zero-or-one
item list. -/
def numItems (tag : Nat) : Option Nat → List Bytes
  | some n => [writeVarint tag ++ writeVarint n]
  | none => []

/-- The encode output viewed as a list of per-record byte strings. -/
def versionEditItems (e : VersionEdit) : List Bytes :=
  cmpItems e.comparator ++ numItems 2 e.log_number ++
  numItems 9 e.prev_log_number ++ numItems 3 e.next_file_number ++
  numItems 4 e.last_sequence ++
  e.compact_pointers.map encodeCompactPointer ++
  e.deleted_files.map encodeDeletedFile ++
  e.new_files.map encodeNewFile

theorem versionEditEncode_eq_flatten (e : VersionEdit) :
    versionEditEncode e = (versionEditItems e).flatten := by
  unfold versionEditEncode versionEditItems
  cases e.comparator <;> cases e.log_number <;> cases e.prev_log_number <;>
    cases e.next_file_number <;> cases e.last_sequence <;>
    simp [List.flatten_append, cmpItems, numItems]

theorem writeVarint_ne_nil (v : Nat) : writeVarint v ≠ [] := by
  by_cases h : v < 128
  · rw [writeVarint_lt v h]
    simp
  · rw [writeVarint_ge v h]
    simp

theorem prefix_ne_nil (a b : Bytes) (ha : a ≠ []) : a ++ b ≠ [] :=
  fun h => ha (List.append_eq_nil.mp h).1

theorem steps_cps (cps : List (Nat × Bytes))
    (hw : ∀ p ∈ cps, p.1 < NUM_LEVELS ∧ p.2 ≠ [] ∧ p.2.length < 2 ^ 32) :
    ∀ e : VersionEdit, Steps e (cps.map encodeCompactPointer)
      { e with compact_pointers := e.compact_pointers ++ cps } := by
  induction cps with
  | nil =>
    intro e
    simpa using Steps.nil e
  | cons p ps ih =>
    intro e
    obtain ⟨hl, hk, hklen⟩ := hw p (List.mem_cons_self p ps)
    have htail := ih (fun q hq => hw q (List.mem_cons_of_mem p hq))
      { e with compact_pointers := e.compact_pointers ++ [p] }
    refine Steps.cons e { e with compact_pointers := e.compact_pointers ++ [p] } _
      (encodeCompactPointer p) (ps.map encodeCompactPointer) ?_ ?_ ?_
    · unfold encodeCompactPointer
      exact prefix_ne_nil _ _ (prefix_ne_nil _ _ (prefix_ne_nil _ _ (writeVarint_ne_nil 5)))
    · intro rest
      obtain ⟨l, k⟩ := p
      exact decodeStep_cp e l k hl hk hklen rest
    · simpa [List.append_assoc, List.singleton_append] using htail

theorem steps_dfs (dfs : List (Nat × Nat))
    (hw : ∀ p ∈ dfs, p.1 < NUM_LEVELS ∧ p.2 < 2 ^ 64) :
    ∀ e : VersionEdit, Steps e (dfs.map encodeDeletedFile)
      { e with deleted_files := e.deleted_files ++ dfs } := by
  induction dfs with
  | nil =>
    intro e
    simpa using Steps.nil e
  | cons p ps ih =>
    intro e
    obtain ⟨hl, hnum⟩ := hw p (List.mem_cons_self p ps)
    have htail := ih (fun q hq => hw q (List.mem_cons_of_mem p hq))
      { e with deleted_files := e.deleted_files ++ [p] }
    refine Steps.cons e { e with deleted_files := e.deleted_files ++ [p] } _
      (encodeDeletedFile p) (ps.map encodeDeletedFile) ?_ ?_ ?_
    · unfold encodeDeletedFile
      exact prefix_ne_nil _ _ (prefix_ne_nil _ _ (writeVarint_ne_nil 6))
    · intro rest
      obtain ⟨l, num⟩ := p
      exact decodeStep_df e l num hl hnum rest
    · simpa [List.append_assoc, List.singleton_append] using htail

theorem steps_nfs (nfs : List (Nat × FileMetaData))
    (hw : ∀ p ∈ nfs, p.1 < NUM_LEVELS ∧ p.2.allowed_seeks = 0 ∧
      p.2.number < 2 ^ 64 ∧ p.2.file_size < 2 ^ 64 ∧
      p.2.smallest ≠ [] ∧ p.2.smallest.length < 2 ^ 32 ∧
      p.2.largest ≠ [] ∧ p.2.largest.length < 2 ^ 32) :
    ∀ e : VersionEdit, Steps e (nfs.map encodeNewFile)
      { e with new_files := e.new_files ++ nfs } := by
  induction nfs with
  | nil =>
    intro e
    simpa using Steps.nil e
  | cons p ps ih =>
    intro e
    obtain ⟨hl, has, hnum, hsize, hsm, hsmlen, hlg, hlglen⟩ := hw p (List.mem_cons_self p ps)
    have htail := ih (fun q hq => hw q (List.mem_cons_of_mem p hq))
      { e with new_files := e.new_files ++ [p] }
    refine Steps.cons e { e with new_files := e.new_files ++ [p] } _
      (encodeNewFile p) (ps.map encodeNewFile) ?_ ?_ ?_
    · unfold encodeNewFile
      exact prefix_ne_nil _ _ (prefix_ne_nil _ _ (prefix_ne_nil _ _ (prefix_ne_nil _ _
        (prefix_ne_nil _ _ (prefix_ne_nil _ _ (prefix_ne_nil _ _
          (writeVarint_ne_nil 7)))))))
    · intro rest
      obtain ⟨l, f⟩ := p
      exact decodeStep_nf e l f hl has hnum hsize hsm hsmlen hlg hlglen rest
    · simpa [List.append_assoc, List.singleton_append] using htail

theorem steps_opt (item : Bytes) (hne : item ≠ []) (e e2 : VersionEdit)
    (hstep : ∀ rest, decodeStep e (item ++ rest) = .ok (e2, rest)) :
    Steps e [item] e2 :=
  Steps.cons e e2 e2 item [] hne hstep (.nil e2)

/-- C7 (amended): `decode ∘ encode` is the identity for every edit
constructed via the public setters whose levels are below `NUM_LEVELS`
and whose compact-pointer and file internal keys are nonempty (with
the numeric fields in their Rust `u64`/`u32` ranges, as the types
guarantee). -/
theorem versionEdit_decode_encode (e : VersionEdit) (hwf : WfEdit e) :
    versionEditDecode versionEditEmpty (versionEditEncode e) = .ok e := by
  obtain ⟨hc, hln, hpln, hnfn, hls, hcps, hdfs, hnfs⟩ := hwf
  obtain ⟨c, ln, pln, nfn, ls, cps, dfs, nfs⟩ := e
  simp only at hc hln hpln hnfn hls hcps hdfs hnfs
  have s1 : Steps versionEditEmpty (cmpItems c)
      ⟨c, none, none, none, none, [], [], []⟩ := by
    cases c with
    | none => exact Steps.nil _
    | some x =>
      exact steps_opt _ (prefix_ne_nil _ _ (prefix_ne_nil _ _ (writeVarint_ne_nil 1))) _ _
        (fun rest => decodeStep_cmp versionEditEmpty x (hc x (by simp)) rest)
  have s2 : Steps ⟨c, none, none, none, none, [], [], []⟩ (numItems 2 ln)
      ⟨c, ln, none, none, none, [], [], []⟩ := by
    cases ln with
    | none => exact Steps.nil _
    | some n =>
      exact steps_opt _ (prefix_ne_nil _ _ (writeVarint_ne_nil 2)) _ _
        (fun rest => decodeStep_log _ n (hln n (by simp)) rest)
  have s3 : Steps ⟨c, ln, none, none, none, [], [], []⟩ (numItems 9 pln)
      ⟨c, ln, pln, none, none, [], [], []⟩ := by
    cases pln with
    | none => exact Steps.nil _
    | some n =>
      exact steps_opt _ (prefix_ne_nil _ _ (writeVarint_ne_nil 9)) _ _
        (fun rest => decodeStep_prevLog _ n (hpln n (by simp)) rest)
  have s4 : Steps ⟨c, ln, pln, none, none, [], [], []⟩ (numItems 3 nfn)
      ⟨c, ln, pln, nfn, none, [], [], []⟩ := by
    cases nfn with
    | none => exact Steps.nil _
    | some n =>
      exact steps_opt _ (prefix_ne_nil _ _ (writeVarint_ne_nil 3)) _ _
        (fun rest => decodeStep_nextFile _ n (hnfn n (by simp)) rest)
  have s5 : Steps ⟨c, ln, pln, nfn, none, [], [], []⟩ (numItems 4 ls)
      ⟨c, ln, pln, nfn, ls, [], [], []⟩ := by
    cases ls with
    | none => exact Steps.nil _
    | some n =>
      exact steps_opt _ (prefix_ne_nil _ _ (writeVarint_ne_nil 4)) _ _
        (fun rest => decodeStep_lastSeq _ n (hls n (by simp)) rest)
  have s6 : Steps ⟨c, ln, pln, nfn, ls, [], [], []⟩ (cps.map encodeCompactPointer)
      ⟨c, ln, pln, nfn, ls, cps, [], []⟩ := by
    simpa using steps_cps cps hcps ⟨c, ln, pln, nfn, ls, [], [], []⟩
  have s7 : Steps ⟨c, ln, pln, nfn, ls, cps, [], []⟩ (dfs.map encodeDeletedFile)
      ⟨c, ln, pln, nfn, ls, cps, dfs, []⟩ := by
    simpa using steps_dfs dfs hdfs ⟨c, ln, pln, nfn, ls, cps, [], []⟩
  have s8 : Steps ⟨c, ln, pln, nfn, ls, cps, dfs, []⟩ (nfs.map encodeNewFile)
      ⟨c, ln, pln, nfn, ls, cps, dfs, nfs⟩ := by
    simpa using steps_nfs nfs hnfs ⟨c, ln, pln, nfn, ls, cps, dfs, []⟩
  have hsteps : Steps versionEditEmpty
      (versionEditItems ⟨c, ln, pln, nfn, ls, cps, dfs, nfs⟩)
      ⟨c, ln, pln, nfn, ls, cps, dfs, nfs⟩ := by
    unfold versionEditItems
    exact Steps.append_steps _ _ _ _ _ (Steps.append_steps _ _ _ _ _
      (Steps.append_steps _ _ _ _ _ (Steps.append_steps _ _ _ _ _
        (Steps.append_steps _ _ _ _ _ (Steps.append_steps _ _ _ _ _
          (Steps.append_steps _ _ _ _ _ s1 s2) s3) s4) s5) s6) s7) s8
  unfold versionEditDecode
  rw [versionEditEncode_eq_flatten]
  apply decodeLoop_steps _ _ _ hsteps
  have := Steps.count_le_flatten _ _ _ hsteps
  omega

/-- Witness for C7 (amended): a concrete edit exercising every record
kind (comparator bytes `[108, 100, 98]`, log number 7, previous log 0,
next file number 9, last sequence 100, a compact pointer at level 1, a
deletion at level 0, and a new file at level 2). -/
theorem versionEdit_decode_encode_witness :
    WfEdit
      ((((((((versionEditEmpty.setComparator [108, 100, 98]).setLogNumber 7
        ).setPrevLogNumber 0).setNextFileNumber 9).setLastSequence 100
        ).addCompactPointer 1 [10, 20]).addDeleteFile 0 3
        ).addNewFile 2 8 1234 [1, 2] [3, 4]) ∧
    versionEditDecode versionEditEmpty (versionEditEncode
      ((((((((versionEditEmpty.setComparator [108, 100, 98]).setLogNumber 7
        ).setPrevLogNumber 0).setNextFileNumber 9).setLastSequence 100
        ).addCompactPointer 1 [10, 20]).addDeleteFile 0 3
        ).addNewFile 2 8 1234 [1, 2] [3, 4])) =
      .ok ((((((((versionEditEmpty.setComparator [108, 100, 98]).setLogNumber 7
        ).setPrevLogNumber 0).setNextFileNumber 9).setLastSequence 100
        ).addCompactPointer 1 [10, 20]).addDeleteFile 0 3
        ).addNewFile 2 8 1234 [1, 2] [3, 4]) := by
  have hwf : WfEdit
      ((((((((versionEditEmpty.setComparator [108, 100, 98]).setLogNumber 7
        ).setPrevLogNumber 0).setNextFileNumber 9).setLastSequence 100
        ).addCompactPointer 1 [10, 20]).addDeleteFile 0 3
        ).addNewFile 2 8 1234 [1, 2] [3, 4]) := by
    refine ⟨?_, ?_, ?_, ?_, ?_, ?_, ?_, ?_⟩ <;> decide
  exact ⟨hwf, versionEdit_decode_encode _ hwf⟩

/-- C7 counterexample: the claim, as stated, fails for two edits built
via the public setters.  `add_compact_pointer(0, InternalKey::empty())`
encodes fine, but decoding rejects the empty internal key
(`InternalKey::decode` returns `false` on empty input); and
`add_delete_file(7, 3)` uses level 7, which decoding's `get_level`
rejects as at least `NUM_LEVELS`.  In both cases decoding the encoding
is `Corruption`, not the original edit. -/
theorem versionEdit_decode_encode_not_id :
    versionEditDecode versionEditEmpty
        (versionEditEncode (versionEditEmpty.addCompactPointer 0 [])) = .error () ∧
      versionEditDecode versionEditEmpty
        (versionEditEncode (versionEditEmpty.addDeleteFile 7 3)) = .error () := by
  constructor
  · rfl
  · rfl

end RLevelDB
